import Mathlib

/-!
# News aggregator: crawl-and-merge orchestrator

A shallow embedding of `news-aggregator.cc`, `news-aggregator.h` and `sem.h`.

* The standard-library algorithms the code calls (`std::set_intersection`,
  `std::min`, `std::sort`) and the ordered container `std::map` are embedded as
  list functions.
* The aggregator's fields become the record `NewsAggregator`; every method is a
  function from a state to a new state together with the sequence of
  observable events (semaphore operations, collaborator calls, index
  insertions) it performs.  Each thread body runs to completion where it is
  spawned; the critical sections of the code are exactly the state updates.
* `Semaphore` is a counter with a guarded `wait` step and a `signal` step.
-/

namespace Rss

/-! ## Articles -/

/-- An article record as used by the aggregator: `article.url` and
`article.title` are the two fields the code reads. -/
structure Article where
  url : String
  title : String
deriving DecidableEq, Repr

/-- Modelled from the spec: `article.h` (the declaration of `Article` and of its
`operator<`) is not among the sources.  The spec asks for a total order on
articles, "lexicographic on url then title"; this is the key it compares. -/
def Article.key (a : Article) : Lex (String × String) := toLex (a.url, a.title)

/-- Modelled from the spec: `operator<` on `Article`, the lexicographic order on
`(url, title)`. -/
instance : LinearOrder Article :=
  LinearOrder.lift' Article.key (by
    intro a b h
    cases a; cases b
    simp only [Article.key, EmbeddingLike.apply_eq_iff_eq, Prod.mk.injEq] at h
    cases h.1; cases h.2; rfl)

/-! ## Standard-library algorithms -/

/-- The algorithm `std::min(a, b)`: `(b < a) ? b : a`. -/
def stdMin {α : Type} [LinearOrder α] (a b : α) : α := if b < a then b else a

/-- The algorithm `std::sort(first, last)` with the default `operator<`. -/
def stdSort {α : Type} [LinearOrder α] (l : List α) : List α := l.insertionSort (· ≤ ·)

/-- The algorithm `std::set_intersection(first1, last1, first2, last2, out)`:
walk both ranges; advance the first when its head is smaller, the second when
its head is smaller, and otherwise copy the head of the first range and advance
both. -/
def set_intersection {α : Type} [LinearOrder α] : List α → List α → List α
  | [], _ => []
  | _ :: _, [] => []
  | a :: as, b :: bs =>
    if a < b then set_intersection as (b :: bs)
    else if b < a then set_intersection (a :: as) bs
    else a :: set_intersection as bs
termination_by l1 l2 => l1.length + l2.length

/-! ## The ordered container `std::map` -/

/-- A `std::map<K, V>`: its entries in iteration order. -/
abbrev StdMap (K V : Type) := List (K × V)

namespace StdMap

variable {K V : Type}

/-- Member `find(k)`: the value stored under `k`, if any. -/
def find [LinearOrder K] : StdMap K V → K → Option V
  | [], _ => none
  | (k', v) :: rest, k => if k' = k then some v else find rest k

/-- Member `count(k)`: `1` when `k` is a key of the map and `0` otherwise. -/
def count [LinearOrder K] (m : StdMap K V) (k : K) : Nat :=
  if (find m k).isSome then 1 else 0

/-- Assignment `m[k] = v`: replace the value under `k`, or insert the entry at
its place in key order. -/
def set [LinearOrder K] : StdMap K V → K → V → StdMap K V
  | [], k, v => [(k, v)]
  | (k', v') :: rest, k, v =>
    if k < k' then (k, v) :: (k', v') :: rest
    else if k' < k then (k', v') :: set rest k v
    else (k, v) :: rest

/-- The keys in iteration order. -/
def keys (m : StdMap K V) : List K := m.map Prod.fst

/-- The representation invariant of `std::map`: keys strictly increasing. -/
def WF [LinearOrder K] (m : StdMap K V) : Prop := (keys m).Sorted (· < ·)

end StdMap

/-! ## The merge table `serverTitleTokenMap` -/

/-- The value type of the inner map: `std::pair<Article, std::vector<std::string>>`. -/
abbrev Record := Article × List String

/-- The type of `serverTitleTokenMap`:
`std::map<server, std::map<title, std::pair<Article, std::vector<std::string>>>>`. -/
abbrev TokenMap := StdMap String (StdMap String Record)

/-- The record stored under `m[host][title]`, if both keys are present. -/
def TokenMap.entry (m : TokenMap) (host title : String) : Option Record :=
  (StdMap.find m host).bind (fun titleMap => StdMap.find titleMap title)

/-- The assignment `serverTitleTokenMap[host][title] = item`; `operator[]`
creates an empty inner map when `host` is absent. -/
def TokenMap.store (m : TokenMap) (host title : String) (item : Record) : TokenMap :=
  StdMap.set m host (StdMap.set ((StdMap.find m host).getD []) title item)

/-- A read of `serverTitleTokenMap[host][title]`: the stored pair, or the
default-constructed pair `operator[]` yields when there is none. -/
def TokenMap.get (m : TokenMap) (host title : String) : Record :=
  (m.entry host title).getD (Article.mk "" "", [])

/-- The flag `isDupe` of the article task:
`serverTitleTokenMap.count(host) == 1 && serverTitleTokenMap[host].count(title) == 1`. -/
def isDupe (m : TokenMap) (host title : String) : Bool :=
  StdMap.count m host == 1 && StdMap.count ((StdMap.find m host).getD []) title == 1

/-- The critical section of the article task (`serverLock.lock()` to
`serverLock.unlock()`): for a duplicate, the stored tokens are intersected with
the incoming ones by `set_intersection` and the smaller of the two articles is
kept; otherwise the incoming article and tokens are taken; the result is stored
under `(host, article.title)`. -/
def mergeRecord (m : TokenMap) (host : String) (article : Article)
    (tokens : List String) : TokenMap :=
  if isDupe m host article.title then
    let curr := m.get host article.title
    m.store host article.title (stdMin article curr.1, set_intersection curr.2 tokens)
  else
    m.store host article.title (article, tokens)

/-- The pair `{newArticle, newTokens}` of the critical section as a function of
the record found under the key, if any. -/
def mergeItem (existing : Option Record) (article : Article) (tokens : List String) :
    Record :=
  match existing with
  | some (currArticle, currToken) =>
    (stdMin article currArticle, set_intersection currToken tokens)
  | none => (article, tokens)

/-- The representation invariant of the nested map: both levels are ordered by
key and no inner map is empty (an inner map is created only to receive a
record). -/
def TokenMap.WF (m : TokenMap) : Prop :=
  StdMap.WF m ∧ ∀ p ∈ m, StdMap.WF p.2 ∧ p.2 ≠ []

/-- Every stored token sequence is sorted in non-decreasing order. -/
def TokenMap.TokensSorted (m : TokenMap) : Prop :=
  ∀ host title record, m.entry host title = some record → record.2.Sorted (· ≤ ·)

/-- The inputs of a sequence of merges: `(host, article, tokens)` per merge. -/
abbrev MergeInput := String × Article × List String

/-- A sequence of critical sections executed one after the other, in the order
in which the tasks obtain `serverLock`. -/
def mergeAll (m : TokenMap) (inputs : List MergeInput) : TokenMap :=
  inputs.foldl (fun acc x => mergeRecord acc x.1 x.2.1 x.2.2) m

/-- The article task from `htmlDoc.getTokens()` to the store: the document's
tokens are sorted with `std::sort` and then merged under `serverLock`. -/
def mergeArticle (m : TokenMap) (host : String) (article : Article)
    (docTokens : List String) : TokenMap :=
  mergeRecord m host article (stdSort docTokens)

/-- A sequence of successful article tasks, each given by its host, article and
the tokens returned by `htmlDoc.getTokens()`. -/
def mergeArticles (m : TokenMap) (inputs : List MergeInput) : TokenMap :=
  inputs.foldl (fun acc x => mergeArticle acc x.1 x.2.1 x.2.2) m

/-- The records of the table in the order of the nested loops
`for (host, titleMap) ... for (title, item) ...`, each with its key. -/
def TokenMap.entries (m : TokenMap) : List ((String × String) × Record) :=
  (m.map (fun hostEntry => hostEntry.2.map (fun titleEntry =>
    ((hostEntry.1, titleEntry.1), titleEntry.2)))).flatten

/-! ## Semaphores (`sem.h`) -/

/-- The class `Semaphore`: its `counter` field (the mutex and the condition
variable only make `wait` and `signal` atomic). -/
structure Semaphore where
  counter : Int
deriving DecidableEq, Repr

/-- The largest value of the C++ type `int`. -/
def INT_MAX : Int := 2147483647

/-- Arithmetic of the 32-bit type `int`: the result of an operation reduced to
the range `[-2^31, 2^31)`. -/
def wrapInt (x : Int) : Int := (x + 2147483648) % 4294967296 - 2147483648

/-- The constructor `Semaphore(int counter)`. -/
def Semaphore.new (counter : Int) : Semaphore := ⟨counter⟩

/-- Method `wait()`: enabled only when `counter > 0` (the predicate of
`cv.wait`), then `counter--`.  `none` means that the caller stays blocked. -/
def Semaphore.wait (s : Semaphore) : Option Semaphore :=
  if s.counter > 0 then some ⟨wrapInt (s.counter - 1)⟩ else none

/-- Method `signal()`: `counter++` (the notification has no effect on the
counter). -/
def Semaphore.signal (s : Semaphore) : Semaphore := ⟨wrapInt (s.counter + 1)⟩

/-- The two operations of a semaphore. -/
inductive SemOp where
  | wait
  | signal
deriving DecidableEq, Repr

/-- One step of a semaphore. -/
def Semaphore.step (s : Semaphore) : SemOp → Option Semaphore
  | .wait => s.wait
  | .signal => some s.signal

/-- A sequence of steps; `none` when some `wait` of the sequence is not enabled. -/
def Semaphore.run : Semaphore → List SemOp → Option Semaphore
  | s, [] => some s
  | s, op :: ops => (s.step op).bind (fun s1 => Semaphore.run s1 ops)

/-- Every `signal` of the sequence is matched to an earlier `wait`: in every
prefix there are at most as many signals as waits. -/
def Matched (ops : List SemOp) : Prop :=
  ∀ n : Nat, (ops.take n).count SemOp.signal ≤ (ops.take n).count SemOp.wait

/-- The semaphores of the aggregator: the fields `feedSem` and `articleSem`, and
the semaphore `serverSem[host]` of a host. -/
inductive SemId where
  | feedSem
  | articleSem
  | serverSem (host : String)
deriving DecidableEq, Repr

/-- The permits each semaphore is constructed with: `feedSem{5}`,
`articleSem{18}` and `new Semaphore{8}` for a host on its first use. -/
def SemId.permits : SemId → Int
  | .feedSem => 5
  | .articleSem => 18
  | .serverSem _ => 8

/-- The semaphore as constructed. -/
def SemId.initial (s : SemId) : Semaphore := Semaphore.new s.permits

/-! ## The aggregator -/

/-- The calls to the logger `log`. -/
inductive LogNote where
  | fullRSSFeedListDownloadFailureAndExit (uri : String)
  | fullRSSFeedListDownloadEnd
  | singleFeedDownloadFailure (url : String)
  | singleArticleDownloadBeginning (article : Article)
  | singleArticleDownloadFailure (article : Article)
deriving DecidableEq, Repr

/-- The observable actions of a run. -/
inductive Event where
  | wait (s : SemId)
  | signal (s : SemId)
  | feedListParse (uri : String)
  | feedParse (url : String)
  | documentParse (article : Article)
  | indexAdd (article : Article) (tokens : List String)
  | note (n : LogNote)
deriving DecidableEq, Repr

/-- The operation an event performs on the semaphore `id`, if any. -/
def Event.semOp (id : SemId) : Event → Option SemOp
  | Event.wait s => if s = id then some SemOp.wait else none
  | Event.signal s => if s = id then some SemOp.signal else none
  | _ => none

/-- The operations a sequence of events performs on the semaphore `id`, in order. -/
def semOps (id : SemId) (events : List Event) : List SemOp :=
  events.filterMap (Event.semOp id)

/-- A `wait` immediately followed by its `signal`, `k` times. -/
def SemOp.pairs : Nat → List SemOp
  | 0 => []
  | k + 1 => SemOp.wait :: SemOp.signal :: SemOp.pairs k

/-- The collaborators of the aggregator.  `feedList uri` is the result of
`RSSFeedList(uri).parse()` followed by `getFeeds()`, `feed url` that of
`RSSFeed(url).parse()` followed by `getArticles()`, `document url` that of
`HTMLDocument(url).parse()` followed by `getTokens()`; `none` stands for the
exception the parse throws.  `getURLServer` is the helper of `utils.h`. -/
structure World where
  feedList : String → Option (StdMap String String)
  feed : String → Option (List Article)
  document : String → Option (List String)
  getURLServer : String → String

/-- A `std::set<T>`, used only through `count` and `insert`. -/
abbrev StdSet (α : Type) := List α

/-- Member `count(x)` of `std::set`. -/
def StdSet.count {α : Type} [DecidableEq α] (s : StdSet α) (x : α) : Nat :=
  if x ∈ s then 1 else 0

/-- Member `insert(x)` of `std::set`. -/
def StdSet.insert {α : Type} [DecidableEq α] (s : StdSet α) (x : α) : StdSet α :=
  if x ∈ s then s else x :: s

/-- The data members of `NewsAggregator`.  `index` is the sequence of
`index.add` calls received so far.  The semaphores appear in the events of a
run; `serverSem[host]` is `SemId.serverSem host`. -/
structure NewsAggregator where
  rssFeedListURI : String
  index : List Record
  built : Bool
  seenUrls : StdSet String
  seenArticles : StdSet Article
  serverTitleTokenMap : TokenMap
deriving DecidableEq, Repr

/-- The constructor: `built(false)` and empty containers. -/
def NewsAggregator.new (rssFeedListURI : String) : NewsAggregator :=
  { rssFeedListURI := rssFeedListURI, index := [], built := false,
    seenUrls := [], seenArticles := [], serverTitleTokenMap := [] }

/-- The body of the thread started for one article in `processArticles`. -/
def articleTask (w : World) (st : NewsAggregator) (article : Article) :
    NewsAggregator × List Event :=
  let host := w.getURLServer article.url
  if StdSet.count st.seenArticles article = 1 then
    (st, [Event.signal SemId.articleSem])
  else
    let st1 := { st with seenArticles := StdSet.insert st.seenArticles article }
    match w.document article.url with
    | none =>
      (st1, [Event.wait (SemId.serverSem host),
             Event.note (LogNote.singleArticleDownloadBeginning article),
             Event.documentParse article,
             Event.note (LogNote.singleArticleDownloadFailure article),
             Event.signal (SemId.serverSem host),
             Event.signal SemId.articleSem])
    | some docTokens =>
      ({ st1 with serverTitleTokenMap :=
            mergeArticle st1.serverTitleTokenMap host article docTokens },
       [Event.wait (SemId.serverSem host),
        Event.note (LogNote.singleArticleDownloadBeginning article),
        Event.documentParse article,
        Event.signal (SemId.serverSem host),
        Event.signal SemId.articleSem])

/-- Method `processArticles`: for each article, `articleSem.wait()` and then
the article's thread; the threads are joined before the method returns. -/
def processArticles (w : World) : NewsAggregator → List Article → NewsAggregator × List Event
  | st, [] => (st, [])
  | st, article :: rest =>
    let r1 := articleTask w st article
    let r2 := processArticles w r1.1 rest
    (r2.1, Event.wait SemId.articleSem :: r1.2 ++ r2.2)

/-- The body of the thread started for one feed in `processFeeds`. -/
def feedTask (w : World) (st : NewsAggregator) (url : String) :
    NewsAggregator × List Event :=
  if StdSet.count st.seenUrls url = 1 then
    (st, [Event.signal SemId.feedSem])
  else
    let st1 := { st with seenUrls := StdSet.insert st.seenUrls url }
    match w.feed url with
    | none =>
      (st1, [Event.feedParse url,
             Event.note (LogNote.singleFeedDownloadFailure url),
             Event.signal SemId.feedSem])
    | some articles =>
      let r := processArticles w st1 articles
      (r.1, Event.feedParse url :: r.2 ++ [Event.signal SemId.feedSem])

/-- The first loop of `processFeeds`: for each entry of `feeds`,
`feedSem.wait()` and then the feed's thread. -/
def dispatchFeeds (w : World) : NewsAggregator → List (String × String) →
    NewsAggregator × List Event
  | st, [] => (st, [])
  | st, feedEntry :: rest =>
    let r1 := feedTask w st feedEntry.1
    let r2 := dispatchFeeds w r1.1 rest
    (r2.1, Event.wait SemId.feedSem :: r1.2 ++ r2.2)

/-- The last loops of `processFeeds`: `index.add(item.first, item.second)` for
every record of `serverTitleTokenMap`. -/
def addToIndex (st : NewsAggregator) : NewsAggregator × List Event :=
  let items := st.serverTitleTokenMap.entries.map Prod.snd
  ({ st with index := st.index ++ items },
   items.map (fun item => Event.indexAdd item.1 item.2))

/-- Method `processFeeds`. -/
def processFeeds (w : World) (st : NewsAggregator) (feeds : StdMap String String) :
    NewsAggregator × List Event :=
  let r1 := dispatchFeeds w st feeds
  let r2 := addToIndex r1.1
  (r2.1, r1.2 ++ r2.2)

/-- The way a run ends without returning to its caller. -/
inductive Fatal where
  | rssFeedListDownloadFailure (uri : String)
deriving DecidableEq, Repr

/-- The result of a method that may end the run: the state it returns with, or
the fatal error, and the events performed. -/
abbrev Run := Except Fatal NewsAggregator × List Event

/-- Modelled from the spec: `log.h` and the logger's implementation are not
among the sources.  `noteFullRSSFeedListDownloadFailureAndExit` reports the
failure and ends the run ("the whole run aborts and the failure is surfaced to
the caller"). -/
def noteFullRSSFeedListDownloadFailureAndExit (uri : String) : Run :=
  (Except.error (Fatal.rssFeedListDownloadFailure uri),
   [Event.note (LogNote.fullRSSFeedListDownloadFailureAndExit uri)])

/-- Method `processAllFeeds`. -/
def processAllFeeds (w : World) (st : NewsAggregator) : Run :=
  match w.feedList st.rssFeedListURI with
  | none =>
    let r := noteFullRSSFeedListDownloadFailureAndExit st.rssFeedListURI
    (r.1, Event.feedListParse st.rssFeedListURI :: r.2)
  | some feeds =>
    let r := processFeeds w st feeds
    (Except.ok r.1,
     Event.feedListParse st.rssFeedListURI ::
       Event.note LogNote.fullRSSFeedListDownloadEnd :: r.2)

/-- Method `buildIndex` (the calls that set up and tear down the XML parser
touch no field of the aggregator). -/
def buildIndex (w : World) (st : NewsAggregator) : Run :=
  if st.built then (Except.ok st, [])
  else processAllFeeds w { st with built := true }

/-- The merge an article task performs once the document of its article has
parsed: the host of the article, the article and the tokens of the document. -/
def World.mergeInput (w : World) (article : Article) : MergeInput :=
  (w.getURLServer article.url, article, (w.document article.url).getD [])

/-- The articles a run over `feeds` fetches successfully: those listed by a feed
of `feeds` that parses and whose own document parses. -/
def World.Fetched (w : World) (feeds : StdMap String String) (article : Article) : Prop :=
  (∃ feedEntry ∈ feeds, ∃ articles, w.feed feedEntry.1 = some articles ∧ article ∈ articles) ∧
    (w.document article.url).isSome

/-- The end-to-end scenario of the spec: two feeds, of which `f1` fails to parse
and `f2` lists three articles, two on host `h` with the same title and one on
host `g`; every document parses. -/
def endToEndWorld : World where
  feedList := fun _ => some [("f1", "first"), ("f2", "second")]
  feed := fun url =>
    if url = "f2" then
      some [Article.mk "h/1" "t", Article.mk "h/2" "t", Article.mk "g/1" "s"]
    else none
  document := fun url =>
    if url = "h/1" then some ["a", "a", "b", "c"]
    else if url = "h/2" then some ["b", "a", "d", "b"]
    else some ["z"]
  getURLServer := fun url => if url = "g/1" then "g" else "h"

/-! ## Facts about the standard-library algorithms -/

section Algorithms

variable {α : Type} [LinearOrder α]

theorem stdMin_eq_min (a b : α) : stdMin a b = min a b := by
  unfold stdMin
  rcases lt_trichotomy a b with h | h | h
  · rw [if_neg (not_lt.mpr h.le), min_eq_left h.le]
  · subst h; simp
  · rw [if_pos h, min_eq_right h.le]

theorem stdSort_sorted (l : List α) : (stdSort l).Sorted (· ≤ ·) :=
  List.sorted_insertionSort _ l

theorem stdSort_perm (l : List α) : (stdSort l).Perm l :=
  List.perm_insertionSort _ l

theorem mem_stdSort {l : List α} {x : α} : x ∈ stdSort l ↔ x ∈ l :=
  (stdSort_perm l).mem_iff

theorem set_intersection_nil_left (l : List α) : set_intersection [] l = [] := by
  rw [set_intersection]

theorem set_intersection_nil_right (l : List α) : set_intersection l [] = [] := by
  cases l <;> rw [set_intersection]

theorem set_intersection_cons (a : α) (as : List α) (b : α) (bs : List α) :
    set_intersection (a :: as) (b :: bs) =
      if a < b then set_intersection as (b :: bs)
      else if b < a then set_intersection (a :: as) bs
      else a :: set_intersection as bs := by
  rw [set_intersection]

/-- The output of `set_intersection` is a subsequence of its first range. -/
theorem set_intersection_sublist (l1 l2 : List α) :
    (set_intersection l1 l2).Sublist l1 := by
  induction l1, l2 using set_intersection.induct with
  | case1 l => rw [set_intersection_nil_left]
  | case2 a as => rw [set_intersection_nil_right]; exact List.nil_sublist _
  | case3 a as b bs hab ih =>
    rw [set_intersection_cons, if_pos hab]
    exact ih.trans (List.sublist_cons_self a as)
  | case4 a as b bs hab hba ih =>
    rw [set_intersection_cons, if_neg hab, if_pos hba]
    exact ih
  | case5 a as b bs hab hba ih =>
    rw [set_intersection_cons, if_neg hab, if_neg hba]
    exact ih.cons₂ a

/-- Every element of the output occurs in the second range as well. -/
theorem mem_right_of_mem_set_intersection {l1 l2 : List α} {x : α}
    (h : x ∈ set_intersection l1 l2) : x ∈ l2 := by
  induction l1, l2 using set_intersection.induct with
  | case1 l => rw [set_intersection_nil_left] at h; cases h
  | case2 a as => rw [set_intersection_nil_right] at h; cases h
  | case3 a as b bs hab ih =>
    rw [set_intersection_cons, if_pos hab] at h
    exact ih h
  | case4 a as b bs hab hba ih =>
    rw [set_intersection_cons, if_neg hab, if_pos hba] at h
    exact List.mem_cons_of_mem _ (ih h)
  | case5 a as b bs hab hba ih =>
    rw [set_intersection_cons, if_neg hab, if_neg hba] at h
    have hab' : a = b := le_antisymm (not_lt.mp hba) (not_lt.mp hab)
    rcases List.mem_cons.mp h with h | h
    · rw [h, hab']; exact List.mem_cons_self _ _
    · exact List.mem_cons_of_mem _ (ih h)

theorem mem_left_of_mem_set_intersection {l1 l2 : List α} {x : α}
    (h : x ∈ set_intersection l1 l2) : x ∈ l1 :=
  (set_intersection_sublist l1 l2).subset h

/-- On a sorted first range the output is sorted. -/
theorem set_intersection_sorted {l1 : List α} (l2 : List α) (h : l1.Sorted (· ≤ ·)) :
    (set_intersection l1 l2).Sorted (· ≤ ·) :=
  List.Pairwise.sublist (set_intersection_sublist l1 l2) h

theorem count_eq_zero_of_lt_head [DecidableEq α] {a b : α} {bs : List α} (hab : a < b)
    (hs : (b :: bs).Sorted (· ≤ ·)) : (b :: bs).count a = 0 := by
  rw [List.count_eq_zero]
  intro hmem
  rcases List.mem_cons.mp hmem with h | h
  · exact absurd h hab.ne
  · exact absurd (List.rel_of_sorted_cons hs a h) (not_le.mpr hab)

/-- On sorted ranges every value occurs in the output as often as in the range
in which it is rarer. -/
theorem count_set_intersection [DecidableEq α] {l1 l2 : List α} (h1 : l1.Sorted (· ≤ ·))
    (h2 : l2.Sorted (· ≤ ·)) (x : α) :
    (set_intersection l1 l2).count x = min (l1.count x) (l2.count x) := by
  induction l1, l2 using set_intersection.induct with
  | case1 l => rw [set_intersection_nil_left]; simp
  | case2 a as => rw [set_intersection_nil_right]; simp
  | case3 a as b bs hab ih =>
    rw [set_intersection_cons, if_pos hab, ih h1.of_cons h2]
    by_cases hx : a = x
    · subst hx
      rw [count_eq_zero_of_lt_head hab h2]; simp
    · rw [List.count_cons_of_ne (Ne.symm hx)]
  | case4 a as b bs hab hba ih =>
    rw [set_intersection_cons, if_neg hab, if_pos hba, ih h1 h2.of_cons]
    by_cases hx : b = x
    · subst hx
      rw [count_eq_zero_of_lt_head hba h1]; simp
    · rw [List.count_cons_of_ne (Ne.symm hx)]
  | case5 a as b bs hab hba ih =>
    rw [set_intersection_cons, if_neg hab, if_neg hba]
    have hab' : a = b := le_antisymm (not_lt.mp hba) (not_lt.mp hab)
    subst hab'
    by_cases hx : a = x
    · subst hx
      simp only [List.count_cons_self, ih h1.of_cons h2.of_cons]
      omega
    · simp only [List.count_cons_of_ne (Ne.symm hx), ih h1.of_cons h2.of_cons]

/-- A sorted sequence is determined by the number of occurrences of each value. -/
theorem sorted_ext [DecidableEq α] {l1 l2 : List α} (h1 : l1.Sorted (· ≤ ·))
    (h2 : l2.Sorted (· ≤ ·))
    (h : ∀ x, l1.count x = l2.count x) : l1 = l2 :=
  List.eq_of_perm_of_sorted (List.perm_iff_count.mpr h) h1 h2

theorem set_intersection_comm {l1 l2 : List α} (h1 : l1.Sorted (· ≤ ·))
    (h2 : l2.Sorted (· ≤ ·)) : set_intersection l1 l2 = set_intersection l2 l1 := by
  apply sorted_ext (set_intersection_sorted _ h1) (set_intersection_sorted _ h2)
  intro x
  rw [count_set_intersection h1 h2, count_set_intersection h2 h1, min_comm]

theorem set_intersection_right_comm {l l1 l2 : List α} (h : l.Sorted (· ≤ ·))
    (h1 : l1.Sorted (· ≤ ·)) (h2 : l2.Sorted (· ≤ ·)) :
    set_intersection (set_intersection l l1) l2 =
      set_intersection (set_intersection l l2) l1 := by
  have s1 := set_intersection_sorted l1 h
  have s2 := set_intersection_sorted l2 h
  apply sorted_ext (set_intersection_sorted _ s1) (set_intersection_sorted _ s2)
  intro x
  rw [count_set_intersection s1 h2, count_set_intersection s2 h1,
    count_set_intersection h h1, count_set_intersection h h2]
  omega

end Algorithms

/-! ## Facts about `std::map` -/

namespace StdMap

variable {K V : Type} [LinearOrder K]

theorem find_set_self (m : StdMap K V) (k : K) (v : V) : find (set m k v) k = some v := by
  induction m with
  | nil => simp [set, find]
  | cons p rest ih =>
    obtain ⟨k', v'⟩ := p
    unfold set
    split_ifs with h1 h2
    · simp [find]
    · simp [find, h2.ne, ih]
    · simp [find]

theorem find_set_of_ne (m : StdMap K V) {k k' : K} (v : V) (h : k' ≠ k) :
    find (set m k v) k' = find m k' := by
  induction m with
  | nil => simp [set, find, Ne.symm h]
  | cons p rest ih =>
    obtain ⟨k0, v0⟩ := p
    unfold set
    split_ifs with h1 h2
    · simp [find, Ne.symm h]
    · simp [find, ih]
    · have hk : k0 = k := le_antisymm (not_lt.mp h1) (not_lt.mp h2)
      subst hk
      simp [find, Ne.symm h]

theorem find_eq_none_iff (m : StdMap K V) (k : K) : find m k = none ↔ k ∉ keys m := by
  induction m with
  | nil => simp [find, keys]
  | cons p rest ih =>
    obtain ⟨k0, v0⟩ := p
    by_cases hk : k0 = k
    · simp [find, keys, hk]
    · simp only [find, if_neg hk, ih, keys, List.map_cons, List.mem_cons, not_or]
      constructor
      · intro h; exact ⟨Ne.symm hk, h⟩
      · intro h; exact h.2

theorem mem_of_find {m : StdMap K V} {k : K} {v : V} (h : find m k = some v) :
    (k, v) ∈ m := by
  induction m with
  | nil => simp [find] at h
  | cons p rest ih =>
    obtain ⟨k0, v0⟩ := p
    by_cases hk : k0 = k
    · simp only [find, if_pos hk, Option.some.injEq] at h
      subst hk; subst h
      exact List.mem_cons_self _ _
    · simp only [find, if_neg hk] at h
      exact List.mem_cons_of_mem _ (ih h)

theorem mem_keys_of_find {m : StdMap K V} {k : K} {v : V} (h : find m k = some v) :
    k ∈ keys m :=
  List.mem_map.mpr ⟨(k, v), mem_of_find h, rfl⟩

theorem mem_keys_set (m : StdMap K V) (k k' : K) (v : V) :
    k' ∈ keys (set m k v) ↔ k' = k ∨ k' ∈ keys m := by
  induction m with
  | nil => simp [set, keys]
  | cons p rest ih =>
    obtain ⟨k0, v0⟩ := p
    unfold set
    split_ifs with h1 h2
    · simp [keys]
    · have ih' : k' ∈ List.map Prod.fst (set rest k v) ↔ k' = k ∨ k' ∈ List.map Prod.fst rest := ih
      simp only [keys, List.map_cons, List.mem_cons, ih']
      tauto
    · have hk : k0 = k := le_antisymm (not_lt.mp h1) (not_lt.mp h2)
      subst hk
      simp [keys]

theorem WF_empty : WF ([] : StdMap K V) := List.sorted_nil

theorem WF.tail {p : K × V} {m : StdMap K V} (h : WF (p :: m)) : WF m :=
  List.Sorted.of_cons h

theorem WF.lt_of_mem {p : K × V} {m : StdMap K V} (h : WF (p :: m)) {k : K}
    (hk : k ∈ keys m) : p.1 < k :=
  List.rel_of_sorted_cons h k hk

theorem WF_cons {p : K × V} {m : StdMap K V} (hm : WF m) (h : ∀ k ∈ keys m, p.1 < k) :
    WF (p :: m) :=
  List.sorted_cons.mpr ⟨h, hm⟩

theorem WF_set {m : StdMap K V} (h : WF m) (k : K) (v : V) : WF (set m k v) := by
  induction m with
  | nil => exact List.sorted_singleton _
  | cons p rest ih =>
    obtain ⟨k0, v0⟩ := p
    unfold set
    split_ifs with h1 h2
    · apply WF_cons h
      intro x hx
      rcases List.mem_cons.mp hx with hx | hx
      · rw [hx]; exact h1
      · exact lt_trans h1 (h.lt_of_mem hx)
    · apply WF_cons (ih h.tail)
      intro x hx
      rcases (mem_keys_set rest k x v).mp hx with hx | hx
      · rw [hx]; exact h2
      · exact h.lt_of_mem hx
    · have hk : k0 = k := le_antisymm (not_lt.mp h1) (not_lt.mp h2)
      subst hk
      exact WF_cons h.tail (fun x hx => h.lt_of_mem hx)

theorem WF.nodup_keys {m : StdMap K V} (h : WF m) : (keys m).Nodup :=
  List.Sorted.nodup h

theorem set_ne_nil (m : StdMap K V) (k : K) (v : V) : set m k v ≠ [] := by
  cases m with
  | nil => simp [set]
  | cons p rest =>
    unfold set
    split_ifs <;> simp

theorem find_head_tail {p : K × V} {m : StdMap K V} (h : WF (p :: m)) : find m p.1 = none := by
  rw [find_eq_none_iff]
  intro hk
  exact lt_irrefl _ (h.lt_of_mem hk)

/-- Two maps with the same lookups are the same map. -/
theorem ext_of_find {m1 m2 : StdMap K V} (h1 : WF m1) (h2 : WF m2)
    (h : ∀ k, find m1 k = find m2 k) : m1 = m2 := by
  induction m1 generalizing m2 with
  | nil =>
    cases m2 with
    | nil => rfl
    | cons p rest =>
      have := h p.1
      simp [find] at this
  | cons p rest ih =>
    cases m2 with
    | nil =>
      have := h p.1
      simp [find] at this
    | cons q rest2 =>
      obtain ⟨k1, v1⟩ := p
      obtain ⟨k2, v2⟩ := q
      have hk : k1 = k2 := by
        by_contra hne
        have e1 := h k1
        have e2 := h k2
        simp only [find, if_true, if_neg hne, if_neg (Ne.symm hne)] at e1 e2
        have l1 : k2 < k1 := h2.lt_of_mem (mem_keys_of_find e1.symm)
        have l2 : k1 < k2 := h1.lt_of_mem (mem_keys_of_find e2)
        exact lt_asymm l1 l2
      subst hk
      have hv : v1 = v2 := by
        have e1 := h k1
        simpa [find] using e1
      subst hv
      congr 1
      apply ih h1.tail h2.tail
      intro k
      by_cases hkk : k1 = k
      · subst hkk
        rw [find_head_tail h1, find_head_tail h2]
      · have e := h k
        simpa [find, hkk] using e

end StdMap

/-! ## Facts about the merge table -/

namespace StdMap

variable {K V : Type} [LinearOrder K]

theorem mem_set {m : StdMap K V} {k : K} {v : V} {p : K × V} (h : p ∈ set m k v) :
    p = (k, v) ∨ p ∈ m := by
  induction m with
  | nil => simpa [set] using h
  | cons q rest ih =>
    obtain ⟨k0, v0⟩ := q
    unfold set at h
    split_ifs at h with h1 h2
    · simpa using h
    · rcases List.mem_cons.mp h with h | h
      · exact Or.inr (h ▸ List.mem_cons_self _ _)
      · rcases ih h with h | h
        · exact Or.inl h
        · exact Or.inr (List.mem_cons_of_mem _ h)
    · rcases List.mem_cons.mp h with h | h
      · exact Or.inl h
      · exact Or.inr (List.mem_cons_of_mem _ h)

theorem find_of_mem {m : StdMap K V} (h : WF m) {k : K} {v : V} (hm : (k, v) ∈ m) :
    find m k = some v := by
  induction m with
  | nil => cases hm
  | cons q rest ih =>
    obtain ⟨k0, v0⟩ := q
    rcases List.mem_cons.mp hm with hm | hm
    · cases hm; simp [find]
    · have hlt : k0 < k := h.lt_of_mem (List.mem_map.mpr ⟨(k, v), hm, rfl⟩)
      simp only [find, if_neg hlt.ne]
      exact ih h.tail hm

end StdMap

namespace TokenMap

theorem entry_nil (host title : String) : entry [] host title = none := rfl

theorem entry_store_self (m : TokenMap) (host title : String) (item : Record) :
    (m.store host title item).entry host title = some item := by
  simp [entry, store, StdMap.find_set_self]

theorem entry_store_of_ne (m : TokenMap) {host title host' title' : String} (item : Record)
    (h : ¬ (host' = host ∧ title' = title)) :
    (m.store host title item).entry host' title' = m.entry host' title' := by
  by_cases hh : host' = host
  · subst hh
    have ht : title' ≠ title := fun e => h ⟨rfl, e⟩
    simp only [entry, store, StdMap.find_set_self, Option.some_bind,
      StdMap.find_set_of_ne _ _ ht]
    cases StdMap.find m host' with
    | none => rfl
    | some inner => rfl
  · simp only [entry, store, StdMap.find_set_of_ne _ _ hh]

theorem WF_nil : WF ([] : TokenMap) :=
  ⟨StdMap.WF_empty, fun p hp => by cases hp⟩

theorem WF_store {m : TokenMap} (h : WF m) (host title : String) (item : Record) :
    WF (m.store host title item) := by
  refine ⟨StdMap.WF_set h.1 _ _, ?_⟩
  intro p hp
  rcases StdMap.mem_set hp with hp | hp
  · subst hp
    refine ⟨StdMap.WF_set ?_ _ _, StdMap.set_ne_nil _ _ _⟩
    cases hf : StdMap.find m host with
    | none => exact StdMap.WF_empty
    | some inner => exact (h.2 _ (StdMap.mem_of_find hf)).1
  · exact h.2 p hp

/-- Two well-formed tables with the same records are the same table. -/
theorem ext_of_entry {m1 m2 : TokenMap} (h1 : WF m1) (h2 : WF m2)
    (h : ∀ host title, m1.entry host title = m2.entry host title) : m1 = m2 := by
  apply StdMap.ext_of_find h1.1 h2.1
  intro host
  have key : ∀ {a b : TokenMap}, WF a → WF b →
      (∀ title, a.entry host title = b.entry host title) →
      ∀ inner, StdMap.find a host = some inner → StdMap.find b host = some inner := by
    intro a b ha hb hab inner hf
    obtain ⟨hwf, hne⟩ := ha.2 _ (StdMap.mem_of_find hf)
    obtain ⟨q, rest, hq⟩ := List.exists_cons_of_ne_nil hne
    have he : a.entry host q.1 = some q.2 := by
      simp only [entry, hf, Option.some_bind]
      apply StdMap.find_of_mem hwf
      simp only at hq
      rw [hq]
      exact List.mem_cons_self _ _
    have hb' := hab q.1
    rw [he] at hb'
    cases hfb : StdMap.find b host with
    | none => simp [entry, hfb] at hb'
    | some inner2 =>
      congr 1
      apply StdMap.ext_of_find (hb.2 _ (StdMap.mem_of_find hfb)).1 hwf
      intro title
      have := hab title
      simpa [entry, hf, hfb] using this.symm
  cases hf1 : StdMap.find m1 host with
  | some inner => exact (key h1 h2 (h host) inner hf1).symm
  | none =>
    cases hf2 : StdMap.find m2 host with
    | none => rfl
    | some inner =>
      have := key h2 h1 (fun t => (h host t).symm) inner hf2
      rw [hf1] at this
      cases this

end TokenMap

theorem StdMap.count_eq_one_iff {K V : Type} [LinearOrder K] (m : StdMap K V) (k : K) :
    StdMap.count m k = 1 ↔ (StdMap.find m k).isSome := by
  unfold StdMap.count
  split_ifs with h
  · simp [h]
  · simp [h]

/-- The flag `isDupe` is set exactly when a record is stored under the key. -/
theorem isDupe_iff (m : TokenMap) (host title : String) :
    isDupe m host title = true ↔ (m.entry host title).isSome := by
  simp only [isDupe, Bool.and_eq_true, beq_iff_eq, StdMap.count_eq_one_iff, TokenMap.entry]
  cases StdMap.find m host with
  | none => simp [StdMap.find]
  | some inner => simp

/-- The critical section stores the pair computed from the record found. -/
theorem mergeRecord_eq_store (m : TokenMap) (host : String) (article : Article)
    (tokens : List String) :
    mergeRecord m host article tokens =
      m.store host article.title (mergeItem (m.entry host article.title) article tokens) := by
  unfold mergeRecord
  cases he : m.entry host article.title with
  | none =>
    have : ¬ (isDupe m host article.title = true) := by
      rw [isDupe_iff, he]; simp
    rw [if_neg this]
    rfl
  | some r =>
    have : isDupe m host article.title = true := by
      rw [isDupe_iff, he]; rfl
    rw [if_pos this]
    simp [TokenMap.get, he, mergeItem]

theorem entry_mergeRecord_self (m : TokenMap) (host : String) (article : Article)
    (tokens : List String) :
    (mergeRecord m host article tokens).entry host article.title =
      some (mergeItem (m.entry host article.title) article tokens) := by
  rw [mergeRecord_eq_store]
  exact TokenMap.entry_store_self _ _ _ _

theorem entry_mergeRecord_of_ne (m : TokenMap) {host host' title' : String}
    (article : Article) (tokens : List String)
    (h : ¬ (host' = host ∧ title' = article.title)) :
    (mergeRecord m host article tokens).entry host' title' = m.entry host' title' := by
  rw [mergeRecord_eq_store]
  exact TokenMap.entry_store_of_ne _ _ h

theorem WF_mergeRecord {m : TokenMap} (h : m.WF) (host : String) (article : Article)
    (tokens : List String) : (mergeRecord m host article tokens).WF := by
  rw [mergeRecord_eq_store]
  exact TokenMap.WF_store h _ _ _

theorem mergeItem_sorted {existing : Option Record} {tokens : List String}
    (he : ∀ r, existing = some r → r.2.Sorted (· ≤ ·)) (ht : tokens.Sorted (· ≤ ·))
    (article : Article) : (mergeItem existing article tokens).2.Sorted (· ≤ ·) := by
  cases existing with
  | none => exact ht
  | some r => exact set_intersection_sorted _ (he r rfl)

theorem tokensSorted_nil : TokenMap.TokensSorted [] := by
  intro host title record h
  cases h

theorem tokensSorted_mergeRecord {m : TokenMap} (h : m.TokensSorted) (host : String)
    (article : Article) {tokens : List String} (ht : tokens.Sorted (· ≤ ·)) :
    (mergeRecord m host article tokens).TokensSorted := by
  intro host' title' record hr
  by_cases hk : host' = host ∧ title' = article.title
  · obtain ⟨rfl, rfl⟩ := hk
    rw [entry_mergeRecord_self] at hr
    cases hr
    exact mergeItem_sorted (fun r hr => h _ _ r hr) ht article
  · rw [entry_mergeRecord_of_ne _ _ _ hk] at hr
    exact h _ _ _ hr

theorem entry_mergeRecord (m : TokenMap) (host : String) (article : Article)
    (tokens : List String) (host' title' : String) :
    (mergeRecord m host article tokens).entry host' title' =
      if host' = host ∧ title' = article.title then
        some (mergeItem (m.entry host article.title) article tokens)
      else m.entry host' title' := by
  split_ifs with h
  · obtain ⟨rfl, rfl⟩ := h
    exact entry_mergeRecord_self _ _ _ _
  · exact entry_mergeRecord_of_ne _ _ _ h

/-- Two merges for the same key commute when all token sequences are sorted. -/
theorem mergeItem_comm {existing : Option Record}
    (he : ∀ r, existing = some r → r.2.Sorted (· ≤ ·))
    (a1 a2 : Article) {t1 t2 : List String}
    (h1 : t1.Sorted (· ≤ ·)) (h2 : t2.Sorted (· ≤ ·)) :
    mergeItem (some (mergeItem existing a1 t1)) a2 t2 =
      mergeItem (some (mergeItem existing a2 t2)) a1 t1 := by
  cases existing with
  | none =>
    simp only [mergeItem, stdMin_eq_min]
    rw [min_comm, set_intersection_comm h1 h2]
  | some r =>
    obtain ⟨a, t⟩ := r
    have ht : t.Sorted (· ≤ ·) := he (a, t) rfl
    simp only [mergeItem, stdMin_eq_min]
    rw [min_left_comm, set_intersection_right_comm ht h1 h2]

/-- Two critical sections commute on a well-formed table with sorted tokens. -/
theorem mergeRecord_comm {m : TokenMap} (hwf : m.WF) (hs : m.TokensSorted)
    (h1 : String) (a1 : Article) {t1 : List String} (s1 : t1.Sorted (· ≤ ·))
    (h2 : String) (a2 : Article) {t2 : List String} (s2 : t2.Sorted (· ≤ ·)) :
    mergeRecord (mergeRecord m h1 a1 t1) h2 a2 t2 =
      mergeRecord (mergeRecord m h2 a2 t2) h1 a1 t1 := by
  apply TokenMap.ext_of_entry (WF_mergeRecord (WF_mergeRecord hwf _ _ _) _ _ _)
    (WF_mergeRecord (WF_mergeRecord hwf _ _ _) _ _ _)
  intro host title
  simp only [entry_mergeRecord]
  by_cases hk : h1 = h2 ∧ a1.title = a2.title
  · obtain ⟨hh, ht⟩ := hk
    subst hh
    rw [ht]
    simp only [and_self, if_true]
    split_ifs with hx
    · rw [mergeItem_comm (fun r hr => hs _ _ r hr) a1 a2 s1 s2]
    · rfl
  · have hk' : ¬ (h2 = h1 ∧ a2.title = a1.title) := fun h => hk ⟨h.1.symm, h.2.symm⟩
    rw [if_neg hk, if_neg hk']
    by_cases hx2 : host = h2 ∧ title = a2.title
    · have hx1 : ¬ (host = h1 ∧ title = a1.title) := by
        rintro ⟨e1, e2⟩
        exact hk ⟨e1.symm.trans hx2.1, e2.symm.trans hx2.2⟩
      rw [if_pos hx2, if_neg hx1, if_pos hx2]
    · rw [if_neg hx2]
      split_ifs <;> rfl

theorem mergeAll_nil (m : TokenMap) : mergeAll m [] = m := rfl

theorem mergeAll_cons (m : TokenMap) (x : MergeInput) (l : List MergeInput) :
    mergeAll m (x :: l) = mergeAll (mergeRecord m x.1 x.2.1 x.2.2) l := rfl

theorem mergeAll_append (m : TokenMap) (l1 l2 : List MergeInput) :
    mergeAll m (l1 ++ l2) = mergeAll (mergeAll m l1) l2 := by
  simp [mergeAll, List.foldl_append]

theorem WF_mergeAll {m : TokenMap} (h : m.WF) (l : List MergeInput) : (mergeAll m l).WF := by
  induction l generalizing m with
  | nil => exact h
  | cons x l ih => exact ih (WF_mergeRecord h _ _ _)

theorem tokensSorted_mergeAll {m : TokenMap} (h : m.TokensSorted) {l : List MergeInput}
    (hl : ∀ x ∈ l, x.2.2.Sorted (· ≤ ·)) : (mergeAll m l).TokensSorted := by
  induction l generalizing m with
  | nil => exact h
  | cons x l ih =>
    exact ih (tokensSorted_mergeRecord h _ _ (hl x (List.mem_cons_self _ _)))
      (fun y hy => hl y (List.mem_cons_of_mem _ hy))

/-- The result of a sequence of merges with sorted tokens does not depend on the
order of the sequence. -/
theorem mergeAll_perm {l1 l2 : List MergeInput} (p : l1.Perm l2) :
    ∀ m : TokenMap, m.WF → m.TokensSorted → (∀ x ∈ l1, x.2.2.Sorted (· ≤ ·)) →
      mergeAll m l1 = mergeAll m l2 := by
  induction p with
  | nil => intro m _ _ _; rfl
  | cons x _ ih =>
    intro m hwf hs hl
    rw [mergeAll_cons, mergeAll_cons]
    exact ih _ (WF_mergeRecord hwf _ _ _)
      (tokensSorted_mergeRecord hs _ _ (hl x (List.mem_cons_self _ _)))
      (fun y hy => hl y (List.mem_cons_of_mem _ hy))
  | swap x y l =>
    intro m hwf hs hl
    rw [mergeAll_cons, mergeAll_cons, mergeAll_cons, mergeAll_cons]
    rw [mergeRecord_comm hwf hs _ _ (hl y (List.mem_cons_self _ _)) _ _
      (hl x (List.mem_cons_of_mem _ (List.mem_cons_self _ _)))]
  | trans p1 _ ih1 ih2 =>
    intro m hwf hs hl
    rw [ih1 m hwf hs hl]
    exact ih2 m hwf hs (fun x hx => hl x (p1.mem_iff.mpr hx))

theorem mergeArticles_eq_mergeAll (m : TokenMap) (l : List MergeInput) :
    mergeArticles m l = mergeAll m (l.map (fun x => (x.1, x.2.1, stdSort x.2.2))) := by
  induction l generalizing m with
  | nil => rfl
  | cons x l ih =>
    simp only [mergeArticles, List.foldl_cons, List.map_cons, mergeAll_cons, mergeArticle]
    exact ih _

theorem mem_tokens_mergeItem {existing : Option Record} {article : Article}
    {tokens : List String} {tok : String}
    (h : tok ∈ (mergeItem existing article tokens).2) :
    tok ∈ tokens ∧ ∀ r, existing = some r → tok ∈ r.2 := by
  cases existing with
  | none => exact ⟨h, fun r hr => by cases hr⟩
  | some r =>
    refine ⟨mem_right_of_mem_set_intersection h, ?_⟩
    intro r' hr
    cases hr
    exact mem_left_of_mem_set_intersection h

theorem article_mergeItem (existing : Option Record) (article : Article)
    (tokens : List String) :
    (mergeItem existing article tokens).1 =
      match existing with
      | some r => min article r.1
      | none => article := by
  cases existing with
  | none => rfl
  | some r => simp [mergeItem, stdMin_eq_min]

/-- The record of a key after a sequence of merges from the empty table. -/
theorem mergeAll_record (l : List MergeInput) (host title : String) :
    ((mergeAll [] l).entry host title = none ↔
        ∀ x ∈ l, ¬ (x.1 = host ∧ x.2.1.title = title)) ∧
    ∀ article tokens, (mergeAll [] l).entry host title = some (article, tokens) →
      (∀ tok ∈ tokens, ∀ x ∈ l, x.1 = host → x.2.1.title = title → tok ∈ x.2.2) ∧
      (∃ x ∈ l, x.1 = host ∧ x.2.1.title = title ∧ x.2.1 = article) ∧
      (∀ x ∈ l, x.1 = host → x.2.1.title = title → article ≤ x.2.1) := by
  induction l using List.reverseRecOn with
  | nil =>
    refine ⟨by simp [mergeAll_nil, TokenMap.entry_nil], ?_⟩
    intro article tokens h
    simp [mergeAll_nil, TokenMap.entry_nil] at h
  | append_singleton l x ih =>
    obtain ⟨ihn, ihs⟩ := ih
    have hstep : mergeAll [] (l ++ [x]) = mergeRecord (mergeAll [] l) x.1 x.2.1 x.2.2 := by
      rw [mergeAll_append]; rfl
    rw [hstep, entry_mergeRecord]
    by_cases hk : host = x.1 ∧ title = x.2.1.title
    · obtain ⟨rfl, rfl⟩ := hk
      rw [if_pos ⟨rfl, rfl⟩]
      refine ⟨?_, ?_⟩
      · constructor
        · intro h; cases h
        · intro h
          exact absurd ⟨rfl, rfl⟩ (h x (List.mem_append_right _ (List.mem_singleton_self x)))
      · intro article tokens h
        simp only [Option.some.injEq] at h
        have hart : (mergeItem ((mergeAll [] l).entry x.1 x.2.1.title) x.2.1 x.2.2).1 = article := by
          rw [h]
        have htok : (mergeItem ((mergeAll [] l).entry x.1 x.2.1.title) x.2.1 x.2.2).2 = tokens := by
          rw [h]
        rw [article_mergeItem] at hart
        refine ⟨?_, ?_, ?_⟩
        · intro tok htk y hy hy1 hy2
          rw [← htok] at htk
          obtain ⟨hin, hex⟩ := mem_tokens_mergeItem htk
          rcases List.mem_append.mp hy with hy | hy
          · cases he : (mergeAll [] l).entry x.1 x.2.1.title with
            | none => exact absurd ⟨hy1, hy2⟩ (ihn.mp he y hy)
            | some r =>
              exact (ihs r.1 r.2 he).1 tok (hex r he) y hy hy1 hy2
          · rw [List.mem_singleton.mp hy]; exact hin
        · cases he : (mergeAll [] l).entry x.1 x.2.1.title with
          | none =>
            rw [he] at hart
            exact ⟨x, List.mem_append_right _ (List.mem_singleton_self x), rfl, rfl, hart⟩
          | some r =>
            rw [he] at hart
            simp only at hart
            rcases min_choice x.2.1 r.1 with hm | hm
            · exact ⟨x, List.mem_append_right _ (List.mem_singleton_self x), rfl, rfl,
                hm.symm.trans hart⟩
            · obtain ⟨y, hy, hy1, hy2, hy3⟩ := (ihs r.1 r.2 he).2.1
              exact ⟨y, List.mem_append_left _ hy, hy1, hy2, hy3.trans (hm.symm.trans hart)⟩
        · intro y hy hy1 hy2
          cases he : (mergeAll [] l).entry x.1 x.2.1.title with
          | none =>
            rw [he] at hart
            rcases List.mem_append.mp hy with hy | hy
            · exact absurd ⟨hy1, hy2⟩ (ihn.mp he y hy)
            · rw [List.mem_singleton.mp hy, ← hart]
          | some r =>
            rw [he] at hart
            simp only at hart
            rcases List.mem_append.mp hy with hy | hy
            · rw [← hart]
              exact le_trans (min_le_right _ _) ((ihs r.1 r.2 he).2.2 y hy hy1 hy2)
            · rw [List.mem_singleton.mp hy, ← hart]
              exact min_le_left _ _
    · have hk' : ¬ (x.1 = host ∧ x.2.1.title = title) := fun h => hk ⟨h.1.symm, h.2.symm⟩
      rw [if_neg hk]
      refine ⟨?_, ?_⟩
      · rw [ihn]
        constructor
        · intro h y hy
          rcases List.mem_append.mp hy with hy | hy
          · exact h y hy
          · rw [List.mem_singleton.mp hy]; exact hk'
        · intro h y hy
          exact h y (List.mem_append_left _ hy)
      · intro article tokens h
        obtain ⟨p1, ⟨y, hy, p2⟩, p3⟩ := ihs article tokens h
        refine ⟨?_, ⟨y, List.mem_append_left _ hy, p2⟩, ?_⟩
        · intro tok htk z hz hz1 hz2
          rcases List.mem_append.mp hz with hz | hz
          · exact p1 tok htk z hz hz1 hz2
          · rw [List.mem_singleton.mp hz] at hz1 hz2
            exact absurd ⟨hz1, hz2⟩ hk'
        · intro z hz hz1 hz2
          rcases List.mem_append.mp hz with hz | hz
          · exact p3 z hz hz1 hz2
          · rw [List.mem_singleton.mp hz] at hz1 hz2
            exact absurd ⟨hz1, hz2⟩ hk'

theorem Article.lt_iff (a b : Article) :
    a < b ↔ a.url < b.url ∨ (a.url = b.url ∧ a.title < b.title) :=
  Prod.Lex.lt_iff _ _

theorem Article.le_iff (a b : Article) :
    a ≤ b ↔ a.url < b.url ∨ (a.url = b.url ∧ a.title ≤ b.title) :=
  Prod.Lex.le_iff _ _

/-! ## The merge step of `processArticles` -/

/-- C1: merge step of `processArticles`.  When a record `(currArticle, existing)`
is stored for `(host, article.title)` and both `existing` and `incoming` are
sorted, the tokens stored after the merge are `set_intersection existing
incoming`, a sorted sequence in which every token occurs exactly
`min (count in existing) (count in incoming)` times; merging `[a,a,b,c]` with
`[a,b,b,d]` stores `[a,b]`; and when no record exists the record stored is
`(article, incoming)`. -/
theorem mergeRecord_tokens_intersection (m : TokenMap) (host : String) (article : Article)
    (incoming : List String) :
    (∀ currArticle existing, m.entry host article.title = some (currArticle, existing) →
      existing.Sorted (· ≤ ·) → incoming.Sorted (· ≤ ·) →
      ∃ newArticle stored,
        (mergeRecord m host article incoming).entry host article.title =
          some (newArticle, stored) ∧
        stored = set_intersection existing incoming ∧
        stored.Sorted (· ≤ ·) ∧
        ∀ token, stored.count token = min (existing.count token) (incoming.count token)) ∧
    (∀ currArticle, m.entry host article.title = some (currArticle, ["a", "a", "b", "c"]) →
      ((mergeRecord m host article ["a", "b", "b", "d"]).entry host article.title).map
        Prod.snd = some ["a", "b"]) ∧
    (m.entry host article.title = none →
      (mergeRecord m host article incoming).entry host article.title =
        some (article, incoming)) := by
  refine ⟨?_, ?_, ?_⟩
  · intro currArticle existing he hs1 hs2
    refine ⟨stdMin article currArticle, set_intersection existing incoming, ?_, rfl,
      set_intersection_sorted _ hs1, fun token => count_set_intersection hs1 hs2 token⟩
    rw [entry_mergeRecord_self, he]
    rfl
  · intro currArticle he
    rw [entry_mergeRecord_self, he]
    simp +decide [mergeItem, set_intersection]
  · intro he
    rw [entry_mergeRecord_self, he]
    rfl

/-- The duplicate case of C1 on the tokens `[a,a,b,c]` and `[a,b,b,d]` of the spec. -/
theorem mergeRecord_tokens_intersection_witness :
    TokenMap.entry [("h", [("t", (Article.mk "h/1" "t", ["a", "a", "b", "c"]))])] "h"
        (Article.mk "h/2" "t").title = some (Article.mk "h/1" "t", ["a", "a", "b", "c"]) ∧
    (["a", "a", "b", "c"] : List String).Sorted (· ≤ ·) ∧
    (["a", "b", "b", "d"] : List String).Sorted (· ≤ ·) ∧
    ∃ newArticle stored,
      (mergeRecord [("h", [("t", (Article.mk "h/1" "t", ["a", "a", "b", "c"]))])] "h"
        (Article.mk "h/2" "t") ["a", "b", "b", "d"]).entry "h" (Article.mk "h/2" "t").title =
          some (newArticle, stored) ∧
      stored = set_intersection ["a", "a", "b", "c"] ["a", "b", "b", "d"] ∧
      stored.Sorted (· ≤ ·) ∧
      ∀ token, stored.count token =
        min ((["a", "a", "b", "c"] : List String).count token)
          ((["a", "b", "b", "d"] : List String).count token) :=
  have h0 : TokenMap.entry [("h", [("t", (Article.mk "h/1" "t", ["a", "a", "b", "c"]))])] "h"
      (Article.mk "h/2" "t").title = some (Article.mk "h/1" "t", ["a", "a", "b", "c"]) := by
    simp [TokenMap.entry, StdMap.find]
  have h1 : (["a", "a", "b", "c"] : List String).Sorted (· ≤ ·) := by simp +decide
  have h2 : (["a", "b", "b", "d"] : List String).Sorted (· ≤ ·) := by simp +decide
  ⟨h0, h1, h2,
    (mergeRecord_tokens_intersection _ "h" (Article.mk "h/2" "t") ["a", "b", "b", "d"]).1
      (Article.mk "h/1" "t") ["a", "a", "b", "c"] h0 h1 h2⟩

/-- C2: MergeRecord invariant.  After every prefix `inputs.take n` of a sequence
of merges applied to the empty `serverTitleTokenMap`, a key `(host, title)` has a
record exactly when some merge of the prefix was for it, and then every stored
token occurs in the tokens of every article merged for the key, and the stored
article is one of the articles merged for the key and is below all of them in
the Article order. -/
theorem mergeAll_record_invariant (inputs : List MergeInput) (n : Nat)
    (host title : String) :
    ((mergeAll [] (inputs.take n)).entry host title = none ↔
        ∀ x ∈ inputs.take n, ¬ (x.1 = host ∧ x.2.1.title = title)) ∧
    ∀ article tokens,
      (mergeAll [] (inputs.take n)).entry host title = some (article, tokens) →
      (∀ tok ∈ tokens, ∀ x ∈ inputs.take n, x.1 = host → x.2.1.title = title →
        tok ∈ x.2.2) ∧
      (∃ x ∈ inputs.take n, x.1 = host ∧ x.2.1.title = title ∧ x.2.1 = article) ∧
      (∀ x ∈ inputs.take n, x.1 = host → x.2.1.title = title → article ≤ x.2.1) :=
  mergeAll_record (inputs.take n) host title

/-- The invariant of C2 after the first two of three merges for the key `(h, t)`. -/
theorem mergeAll_record_invariant_witness :
    (mergeAll [] (List.take 2
        [("h", Article.mk "h/2" "t", ["a", "a", "b", "c"]),
         ("h", Article.mk "h/1" "t", ["a", "b", "b", "d"]),
         ("h", Article.mk "h/0" "t", ["x"])])).entry "h" "t" =
      some (Article.mk "h/1" "t", ["a", "b"]) ∧
    ((∀ tok ∈ ["a", "b"], ∀ x ∈ List.take 2
        [("h", Article.mk "h/2" "t", ["a", "a", "b", "c"]),
         ("h", Article.mk "h/1" "t", ["a", "b", "b", "d"]),
         ("h", Article.mk "h/0" "t", ["x"])], x.1 = "h" → x.2.1.title = "t" →
        tok ∈ x.2.2) ∧
      (∃ x ∈ List.take 2
        [("h", Article.mk "h/2" "t", ["a", "a", "b", "c"]),
         ("h", Article.mk "h/1" "t", ["a", "b", "b", "d"]),
         ("h", Article.mk "h/0" "t", ["x"])],
          x.1 = "h" ∧ x.2.1.title = "t" ∧ x.2.1 = Article.mk "h/1" "t") ∧
      (∀ x ∈ List.take 2
        [("h", Article.mk "h/2" "t", ["a", "a", "b", "c"]),
         ("h", Article.mk "h/1" "t", ["a", "b", "b", "d"]),
         ("h", Article.mk "h/0" "t", ["x"])], x.1 = "h" → x.2.1.title = "t" →
        Article.mk "h/1" "t" ≤ x.2.1)) :=
  have h0 : (mergeAll [] (List.take 2
        [("h", Article.mk "h/2" "t", ["a", "a", "b", "c"]),
         ("h", Article.mk "h/1" "t", ["a", "b", "b", "d"]),
         ("h", Article.mk "h/0" "t", ["x"])])).entry "h" "t" =
      some (Article.mk "h/1" "t", ["a", "b"]) := by
    simp +decide [mergeAll, mergeRecord, isDupe, StdMap.count, TokenMap.get, TokenMap.entry,
      TokenMap.store, StdMap.find,
      StdMap.set, mergeItem, stdMin, set_intersection, Article.lt_iff]
  ⟨h0, (mergeAll_record_invariant _ 2 "h" "t").2 _ _ h0⟩

/-- C3: order independence of the merge.  Applying the merge step to the empty
`serverTitleTokenMap` along two permutations of the same list of merge inputs
with sorted tokens yields the same map. -/
theorem mergeAll_order_independent (inputs1 inputs2 : List MergeInput)
    (hperm : inputs1.Perm inputs2)
    (hsorted : ∀ x ∈ inputs1, x.2.2.Sorted (· ≤ ·)) :
    mergeAll [] inputs1 = mergeAll [] inputs2 :=
  mergeAll_perm hperm [] TokenMap.WF_nil tokensSorted_nil hsorted

/-- Two merges for the same key, in both orders. -/
theorem mergeAll_order_independent_witness :
    List.Perm [("h", Article.mk "h/2" "t", ["a", "a", "b", "c"]),
               ("h", Article.mk "h/1" "t", ["a", "b", "b", "d"])]
              [("h", Article.mk "h/1" "t", ["a", "b", "b", "d"]),
               ("h", Article.mk "h/2" "t", ["a", "a", "b", "c"])] ∧
    (∀ x ∈ [(("h", Article.mk "h/2" "t", ["a", "a", "b", "c"]) : MergeInput),
             ("h", Article.mk "h/1" "t", ["a", "b", "b", "d"])],
        x.2.2.Sorted (· ≤ ·)) ∧
    mergeAll [] [("h", Article.mk "h/2" "t", ["a", "a", "b", "c"]),
                 ("h", Article.mk "h/1" "t", ["a", "b", "b", "d"])] =
      mergeAll [] [("h", Article.mk "h/1" "t", ["a", "b", "b", "d"]),
                   ("h", Article.mk "h/2" "t", ["a", "a", "b", "c"])] :=
  have hp : List.Perm [(("h", Article.mk "h/2" "t", ["a", "a", "b", "c"]) : MergeInput),
               ("h", Article.mk "h/1" "t", ["a", "b", "b", "d"])]
              [("h", Article.mk "h/1" "t", ["a", "b", "b", "d"]),
               ("h", Article.mk "h/2" "t", ["a", "a", "b", "c"])] := List.Perm.swap _ _ _
  have hs : ∀ x ∈ [(("h", Article.mk "h/2" "t", ["a", "a", "b", "c"]) : MergeInput),
             ("h", Article.mk "h/1" "t", ["a", "b", "b", "d"])],
        x.2.2.Sorted (· ≤ ·) := by
    simp +decide
  ⟨hp, hs, mergeAll_order_independent _ _ hp hs⟩

/-- C10: sortedness invariant.  After every sequence of article merges (each
sorting the document's tokens before the critical section) starting from the
empty `serverTitleTokenMap`, the token sequence of every record is sorted in
non-decreasing order, which is the precondition of `set_intersection` at the
next merge for the same key. -/
theorem mergeArticles_tokens_sorted (inputs : List MergeInput) (host title : String)
    (record : Record)
    (h : (mergeArticles [] inputs).entry host title = some record) :
    record.2.Sorted (· ≤ ·) := by
  rw [mergeArticles_eq_mergeAll] at h
  refine tokensSorted_mergeAll tokensSorted_nil ?_ host title record h
  intro x hx
  obtain ⟨y, _, rfl⟩ := List.mem_map.mp hx
  exact stdSort_sorted _

/-- Two article merges with unsorted document tokens leave the sorted record `[a, b]`. -/
theorem mergeArticles_tokens_sorted_witness :
    (mergeArticles [] [("h", Article.mk "h/2" "t", ["c", "a", "b", "a"]),
                       ("h", Article.mk "h/1" "t", ["b", "a", "d", "b"])]).entry "h" "t" =
      some (Article.mk "h/1" "t", ["a", "b"]) ∧
    (Article.mk "h/1" "t", ["a", "b"]).2.Sorted (· ≤ ·) :=
  have h0 : (mergeArticles [] [("h", Article.mk "h/2" "t", ["c", "a", "b", "a"]),
                       ("h", Article.mk "h/1" "t", ["b", "a", "d", "b"])]).entry "h" "t" =
      some (Article.mk "h/1" "t", ["a", "b"]) := by
    simp +decide [mergeArticles, mergeArticle, stdSort, mergeRecord, isDupe, StdMap.count,
      TokenMap.get, TokenMap.entry,
      TokenMap.store, StdMap.find, StdMap.set, mergeItem, stdMin, set_intersection,
      Article.lt_iff]
  ⟨h0, mergeArticles_tokens_sorted _ "h" "t" _ h0⟩

/-! ## Semaphores -/

theorem wrapInt_eq {x : Int} (h1 : -2147483648 ≤ x) (h2 : x ≤ INT_MAX) : wrapInt x = x := by
  unfold INT_MAX at h2
  unfold wrapInt
  omega

theorem Matched.tail_wait {ops : List SemOp} {d : Nat}
    (h : ∀ n, ((SemOp.wait :: ops).take n).count SemOp.signal ≤
      ((SemOp.wait :: ops).take n).count SemOp.wait + d) :
    ∀ n, (ops.take n).count SemOp.signal ≤ (ops.take n).count SemOp.wait + (d + 1) := by
  intro n
  have := h (n + 1)
  simp only [List.take_succ_cons, List.count_cons_self, List.count_cons_of_ne (a := SemOp.signal)
    (b := SemOp.wait) (by decide)] at this
  omega

theorem Matched.tail_signal {ops : List SemOp} {d : Nat}
    (h : ∀ n, ((SemOp.signal :: ops).take n).count SemOp.signal ≤
      ((SemOp.signal :: ops).take n).count SemOp.wait + d) :
    1 ≤ d ∧ ∀ n, (ops.take n).count SemOp.signal ≤ (ops.take n).count SemOp.wait + (d - 1) := by
  have h1 := h 1
  simp at h1
  refine ⟨h1, ?_⟩
  intro n
  have := h (n + 1)
  simp only [List.take_succ_cons, List.count_cons_self, List.count_cons_of_ne (a := SemOp.wait)
    (b := SemOp.signal) (by decide)] at this
  omega

/-- The counter after a run in which `d` permits were outstanding at the start
and every further signal is matched to an outstanding permit or an earlier wait. -/
theorem Semaphore.run_counter (N : Int) (hN : N ≤ INT_MAX) :
    ∀ (ops : List SemOp) (s0 s : Semaphore) (d : Nat),
      0 ≤ s0.counter → s0.counter + d = N →
      (∀ n, (ops.take n).count SemOp.signal ≤ (ops.take n).count SemOp.wait + d) →
      s0.run ops = some s →
      0 ≤ s.counter ∧
        s.counter + d + (ops.count SemOp.wait : Int) = N + (ops.count SemOp.signal : Int) ∧
        s.counter ≤ N := by
  intro ops
  induction ops with
  | nil =>
    intro s0 s d h0 hd _ hrun
    simp only [Semaphore.run, Option.some.injEq] at hrun
    subst hrun
    simp only [List.count_nil, Nat.cast_zero, add_zero]
    omega
  | cons op ops ih =>
    intro s0 s d h0 hd hm hrun
    cases op with
    | wait =>
      simp only [Semaphore.run, Semaphore.step, Semaphore.wait] at hrun
      by_cases hc : s0.counter > 0
      · rw [if_pos hc] at hrun
        simp only [Option.some_bind] at hrun
        have hw : wrapInt (s0.counter - 1) = s0.counter - 1 :=
          wrapInt_eq (by omega) (by omega)
        rw [hw] at hrun
        have := ih ⟨s0.counter - 1⟩ s (d + 1) (by simp only; omega)
          (by simp only; push_cast; omega) (Matched.tail_wait hm) hrun
        simp only [List.count_cons_self, List.count_cons_of_ne (a := SemOp.signal)
          (b := SemOp.wait) (by decide)]
        push_cast at this ⊢
        omega
      · rw [if_neg hc] at hrun
        simp at hrun
    | signal =>
      obtain ⟨hd1, hm'⟩ := Matched.tail_signal hm
      simp only [Semaphore.run, Semaphore.step, Semaphore.signal, Option.some_bind] at hrun
      have hw : wrapInt (s0.counter + 1) = s0.counter + 1 :=
        wrapInt_eq (by omega) (by omega)
      rw [hw] at hrun
      have := ih ⟨s0.counter + 1⟩ s (d - 1) (by simp only; omega)
        (by simp only; omega) hm' hrun
      simp only [List.count_cons_self, List.count_cons_of_ne (a := SemOp.wait)
        (b := SemOp.signal) (by decide)]
      push_cast at this ⊢
      omega

theorem SemId.permits_pos (id : SemId) : 0 < id.permits := by
  cases id <;> simp [SemId.permits]

theorem SemId.permits_le (id : SemId) : id.permits ≤ INT_MAX := by
  cases id <;> simp [SemId.permits, INT_MAX]

/-! ## Fields a run leaves alone -/

theorem articleTask_fields (w : World) (st : NewsAggregator) (article : Article) :
    (articleTask w st article).1.built = st.built ∧
    (articleTask w st article).1.rssFeedListURI = st.rssFeedListURI ∧
    (articleTask w st article).1.index = st.index ∧
    (articleTask w st article).1.seenUrls = st.seenUrls := by
  unfold articleTask
  split_ifs
  · exact ⟨rfl, rfl, rfl, rfl⟩
  · cases w.document article.url <;> exact ⟨rfl, rfl, rfl, rfl⟩

theorem processArticles_fields (w : World) (st : NewsAggregator) (articles : List Article) :
    (processArticles w st articles).1.built = st.built ∧
    (processArticles w st articles).1.rssFeedListURI = st.rssFeedListURI ∧
    (processArticles w st articles).1.index = st.index ∧
    (processArticles w st articles).1.seenUrls = st.seenUrls := by
  induction articles generalizing st with
  | nil => exact ⟨rfl, rfl, rfl, rfl⟩
  | cons a rest ih =>
    obtain ⟨h1, h2, h3, h4⟩ := ih (articleTask w st a).1
    obtain ⟨g1, g2, g3, g4⟩ := articleTask_fields w st a
    simp only [processArticles]
    exact ⟨h1.trans g1, h2.trans g2, h3.trans g3, h4.trans g4⟩

theorem feedTask_fields (w : World) (st : NewsAggregator) (url : String) :
    (feedTask w st url).1.built = st.built ∧
    (feedTask w st url).1.rssFeedListURI = st.rssFeedListURI ∧
    (feedTask w st url).1.index = st.index := by
  unfold feedTask
  split_ifs
  · exact ⟨rfl, rfl, rfl⟩
  · cases w.feed url with
    | none => exact ⟨rfl, rfl, rfl⟩
    | some articles =>
      obtain ⟨h1, h2, h3, _⟩ := processArticles_fields w
        { st with seenUrls := StdSet.insert st.seenUrls url } articles
      exact ⟨h1, h2, h3⟩

theorem dispatchFeeds_fields (w : World) (st : NewsAggregator)
    (feeds : List (String × String)) :
    (dispatchFeeds w st feeds).1.built = st.built ∧
    (dispatchFeeds w st feeds).1.rssFeedListURI = st.rssFeedListURI ∧
    (dispatchFeeds w st feeds).1.index = st.index := by
  induction feeds generalizing st with
  | nil => exact ⟨rfl, rfl, rfl⟩
  | cons f rest ih =>
    obtain ⟨h1, h2, h3⟩ := ih (feedTask w st f.1).1
    obtain ⟨g1, g2, g3⟩ := feedTask_fields w st f.1
    simp only [dispatchFeeds]
    exact ⟨h1.trans g1, h2.trans g2, h3.trans g3⟩

theorem processFeeds_built (w : World) (st : NewsAggregator) (feeds : StdMap String String) :
    (processFeeds w st feeds).1.built = st.built :=
  (dispatchFeeds_fields w st feeds).1

/-! ## `buildIndex` -/

/-- C7: `buildIndex` is idempotent.  In a state whose `built` flag is set the
call returns the same state and performs no event at all (no feed-list parse,
no fetch, no index insertion); and the state a first call returns with has the
flag set, so a second call is such a no-op. -/
theorem buildIndex_idempotent (w : World) :
    (∀ st : NewsAggregator, st.built = true → buildIndex w st = (Except.ok st, [])) ∧
    (∀ (st st1 : NewsAggregator) (events : List Event),
      buildIndex w st = (Except.ok st1, events) →
      st1.built = true ∧ buildIndex w st1 = (Except.ok st1, [])) := by
  have first : ∀ st : NewsAggregator, st.built = true →
      buildIndex w st = (Except.ok st, []) := by
    intro st h
    simp [buildIndex, h]
  refine ⟨first, ?_⟩
  intro st st1 events h
  have hb : st1.built = true := by
    unfold buildIndex at h
    split_ifs at h with hbuilt
    · simp only [Prod.mk.injEq, Except.ok.injEq] at h
      rw [← h.1]; exact hbuilt
    · unfold processAllFeeds at h
      cases hf : w.feedList st.rssFeedListURI with
      | none =>
        simp [hf, noteFullRSSFeedListDownloadFailureAndExit] at h
      | some feeds =>
        simp only [hf, Prod.mk.injEq, Except.ok.injEq] at h
        rw [← h.1, processFeeds_built]
  exact ⟨hb, first st1 hb⟩

/-- A second call on a built aggregator. -/
theorem buildIndex_idempotent_witness :
    ({ NewsAggregator.new "feeds.xml" with built := true }).built = true ∧
    buildIndex ⟨fun _ => none, fun _ => none, fun _ => none, fun u => u⟩
        { NewsAggregator.new "feeds.xml" with built := true } =
      (Except.ok { NewsAggregator.new "feeds.xml" with built := true }, []) :=
  ⟨rfl, (buildIndex_idempotent ⟨fun _ => none, fun _ => none, fun _ => none, fun u => u⟩).1
    _ rfl⟩

/-- C8: fatal feed-list failure.  When `buildIndex` runs (the flag `built` is
not set) and parsing the feed list fails, the run ends with the distinguished
error `Fatal.rssFeedListDownloadFailure` instead of returning a state, and its
only events are the feed-list parse and the failure note: no feed is
dispatched, no article is fetched and nothing is added to the index. -/
theorem buildIndex_feedList_failure (w : World) (st : NewsAggregator)
    (hbuilt : st.built = false) (hfail : w.feedList st.rssFeedListURI = none) :
    buildIndex w st =
      (Except.error (Fatal.rssFeedListDownloadFailure st.rssFeedListURI),
       [Event.feedListParse st.rssFeedListURI,
        Event.note (LogNote.fullRSSFeedListDownloadFailureAndExit st.rssFeedListURI)]) ∧
    processAllFeeds w st =
      (Except.error (Fatal.rssFeedListDownloadFailure st.rssFeedListURI),
       [Event.feedListParse st.rssFeedListURI,
        Event.note (LogNote.fullRSSFeedListDownloadFailureAndExit st.rssFeedListURI)]) ∧
    (∀ st1, (buildIndex w st).1 ≠ Except.ok st1) ∧
    (∀ e ∈ (buildIndex w st).2,
      (∀ s, e ≠ Event.wait s) ∧ (∀ url, e ≠ Event.feedParse url) ∧
      (∀ article, e ≠ Event.documentParse article) ∧
      (∀ article tokens, e ≠ Event.indexAdd article tokens)) := by
  have h2 : processAllFeeds w st =
      (Except.error (Fatal.rssFeedListDownloadFailure st.rssFeedListURI),
       [Event.feedListParse st.rssFeedListURI,
        Event.note (LogNote.fullRSSFeedListDownloadFailureAndExit st.rssFeedListURI)]) := by
    simp [processAllFeeds, hfail, noteFullRSSFeedListDownloadFailureAndExit]
  have h1 : buildIndex w st =
      (Except.error (Fatal.rssFeedListDownloadFailure st.rssFeedListURI),
       [Event.feedListParse st.rssFeedListURI,
        Event.note (LogNote.fullRSSFeedListDownloadFailureAndExit st.rssFeedListURI)]) := by
    simp [buildIndex, hbuilt, processAllFeeds, hfail, noteFullRSSFeedListDownloadFailureAndExit]
  refine ⟨h1, h2, ?_, ?_⟩
  · intro st1 h
    rw [h1] at h
    cases h
  · intro e he
    rw [h1] at he
    simp only [List.mem_cons, List.mem_singleton, List.not_mem_nil, or_false] at he
    rcases he with rfl | rfl <;> simp

/-- A run in a world where every parse fails. -/
theorem buildIndex_feedList_failure_witness :
    (NewsAggregator.new "feeds.xml").built = false ∧
    (World.mk (fun _ => none) (fun _ => none) (fun _ => none) (fun u => u)).feedList
      (NewsAggregator.new "feeds.xml").rssFeedListURI = none ∧
    buildIndex (World.mk (fun _ => none) (fun _ => none) (fun _ => none) (fun u => u))
        (NewsAggregator.new "feeds.xml") =
      (Except.error (Fatal.rssFeedListDownloadFailure "feeds.xml"),
       [Event.feedListParse "feeds.xml",
        Event.note (LogNote.fullRSSFeedListDownloadFailureAndExit "feeds.xml")]) :=
  ⟨rfl, rfl,
    (buildIndex_feedList_failure
      (World.mk (fun _ => none) (fun _ => none) (fun _ => none) (fun u => u))
      (NewsAggregator.new "feeds.xml") rfl rfl).1⟩

/-! ## Semaphore operations of the tasks -/

theorem articleTask_trace_seen (w : World) (st : NewsAggregator) (article : Article)
    (h : article ∈ st.seenArticles) :
    articleTask w st article = (st, [Event.signal SemId.articleSem]) := by
  simp [articleTask, StdSet.count, h]

theorem articleTask_trace_failure (w : World) (st : NewsAggregator) (article : Article)
    (h : article ∉ st.seenArticles) (hd : w.document article.url = none) :
    articleTask w st article =
      ({ st with seenArticles := StdSet.insert st.seenArticles article },
       [Event.wait (SemId.serverSem (w.getURLServer article.url)),
        Event.note (LogNote.singleArticleDownloadBeginning article),
        Event.documentParse article,
        Event.note (LogNote.singleArticleDownloadFailure article),
        Event.signal (SemId.serverSem (w.getURLServer article.url)),
        Event.signal SemId.articleSem]) := by
  simp [articleTask, StdSet.count, h, hd]

theorem articleTask_trace_success (w : World) (st : NewsAggregator) (article : Article)
    (docTokens : List String)
    (h : article ∉ st.seenArticles) (hd : w.document article.url = some docTokens) :
    articleTask w st article =
      ({ st with
          seenArticles := StdSet.insert st.seenArticles article
          serverTitleTokenMap :=
            mergeArticle st.serverTitleTokenMap (w.getURLServer article.url) article docTokens },
       [Event.wait (SemId.serverSem (w.getURLServer article.url)),
        Event.note (LogNote.singleArticleDownloadBeginning article),
        Event.documentParse article,
        Event.signal (SemId.serverSem (w.getURLServer article.url)),
        Event.signal SemId.articleSem]) := by
  simp [articleTask, StdSet.count, h, hd]

/-- The article task signals every semaphore as often as it waits on it, and
`articleSem` once more: the permit its dispatcher acquired. -/
theorem articleTask_balance (w : World) (st : NewsAggregator) (article : Article)
    (s : SemId) :
    (articleTask w st article).2.count (Event.wait s) +
        (if s = SemId.articleSem then 1 else 0) =
      (articleTask w st article).2.count (Event.signal s) := by
  by_cases h : article ∈ st.seenArticles
  · rw [articleTask_trace_seen w st article h]
    cases s <;> simp [List.count_cons]
  · cases hd : w.document article.url with
    | none =>
      rw [articleTask_trace_failure w st article h hd]
      cases s <;> simp [List.count_cons]
    | some docTokens =>
      rw [articleTask_trace_success w st article docTokens h hd]
      cases s <;> simp [List.count_cons]

theorem processArticles_balance (w : World) (st : NewsAggregator) (articles : List Article)
    (s : SemId) :
    (processArticles w st articles).2.count (Event.wait s) =
      (processArticles w st articles).2.count (Event.signal s) := by
  induction articles generalizing st with
  | nil => rfl
  | cons a rest ih =>
    have h1 := articleTask_balance w st a s
    have h2 := ih (articleTask w st a).1
    simp only [processArticles, List.count_cons, List.count_append]
    by_cases hs : s = SemId.articleSem
    · subst hs
      simp only [if_true] at h1
      simp
      omega
    · simp only [if_neg hs, add_zero] at h1
      simp [Ne.symm hs]
      omega

theorem feedTask_trace_seen (w : World) (st : NewsAggregator) (url : String)
    (h : url ∈ st.seenUrls) :
    feedTask w st url = (st, [Event.signal SemId.feedSem]) := by
  simp [feedTask, StdSet.count, h]

theorem feedTask_trace_failure (w : World) (st : NewsAggregator) (url : String)
    (h : url ∉ st.seenUrls) (hf : w.feed url = none) :
    feedTask w st url =
      ({ st with seenUrls := StdSet.insert st.seenUrls url },
       [Event.feedParse url, Event.note (LogNote.singleFeedDownloadFailure url),
        Event.signal SemId.feedSem]) := by
  simp [feedTask, StdSet.count, h, hf]

theorem feedTask_trace_success (w : World) (st : NewsAggregator) (url : String)
    (articles : List Article) (h : url ∉ st.seenUrls) (hf : w.feed url = some articles) :
    feedTask w st url =
      ((processArticles w { st with seenUrls := StdSet.insert st.seenUrls url } articles).1,
       Event.feedParse url ::
        (processArticles w { st with seenUrls := StdSet.insert st.seenUrls url } articles).2 ++
          [Event.signal SemId.feedSem]) := by
  simp [feedTask, StdSet.count, h, hf]

/-- The semaphore events of `processArticles` never concern `feedSem`. -/
theorem processArticles_no_feedSem (w : World) (st : NewsAggregator)
    (articles : List Article) :
    (processArticles w st articles).2.count (Event.signal SemId.feedSem) = 0 ∧
    (processArticles w st articles).2.count (Event.wait SemId.feedSem) = 0 := by
  induction articles generalizing st with
  | nil => exact ⟨rfl, rfl⟩
  | cons a rest ih =>
    obtain ⟨h1, h2⟩ := ih (articleTask w st a).1
    have key : (articleTask w st a).2.count (Event.signal SemId.feedSem) = 0 ∧
        (articleTask w st a).2.count (Event.wait SemId.feedSem) = 0 := by
      by_cases h : a ∈ st.seenArticles
      · rw [articleTask_trace_seen w st a h]; simp [List.count_cons]
      · cases hd : w.document a.url with
        | none => rw [articleTask_trace_failure w st a h hd]; simp [List.count_cons]
        | some docTokens =>
          rw [articleTask_trace_success w st a docTokens h hd]; simp [List.count_cons]
    simp only [processArticles, List.count_cons, List.count_append, h1, h2, key.1, key.2]
    simp

/-- The feed task signals every semaphore as often as it waits on it, and
`feedSem` once more: the permit its dispatcher acquired. -/
theorem feedTask_balance (w : World) (st : NewsAggregator) (url : String) (s : SemId) :
    (feedTask w st url).2.count (Event.wait s) + (if s = SemId.feedSem then 1 else 0) =
      (feedTask w st url).2.count (Event.signal s) := by
  by_cases h : url ∈ st.seenUrls
  · rw [feedTask_trace_seen w st url h]
    cases s <;> simp [List.count_cons]
  · cases hf : w.feed url with
    | none =>
      rw [feedTask_trace_failure w st url h hf]
      cases s <;> simp [List.count_cons]
    | some articles =>
      rw [feedTask_trace_success w st url articles h hf]
      have hb := processArticles_balance w
        { st with seenUrls := StdSet.insert st.seenUrls url } articles s
      simp only [List.count_cons, List.count_append, hb]
      cases s <;> simp

theorem dispatchFeeds_balance (w : World) (st : NewsAggregator)
    (feeds : List (String × String)) (s : SemId) :
    (dispatchFeeds w st feeds).2.count (Event.wait s) =
      (dispatchFeeds w st feeds).2.count (Event.signal s) := by
  induction feeds generalizing st with
  | nil => rfl
  | cons f rest ih =>
    have h1 := feedTask_balance w st f.1 s
    have h2 := ih (feedTask w st f.1).1
    simp only [dispatchFeeds, List.count_cons, List.count_append]
    by_cases hs : s = SemId.feedSem
    · subst hs
      simp only [if_true] at h1
      simp
      omega
    · simp only [if_neg hs, add_zero] at h1
      simp [Ne.symm hs]
      omega

/-- C5: permit balance.  Whatever the outcome (duplicate, fetch failure,
success), the feed task body signals `feedSem` exactly once and never waits on
it, and the article task body signals `articleSem` exactly once and signals the
semaphore of each host exactly as often as it waits on it: never on the
duplicate path, once (for the article's host) otherwise, where the trace ends
with the release of the host permit followed by that of the global permit.
Counting the `wait` of the dispatcher, `processArticles` and the dispatch loop
of `processFeeds` signal every semaphore exactly as often as they wait on it. -/
theorem permit_balance (w : World) (st : NewsAggregator) :
    (∀ url,
      (feedTask w st url).2.count (Event.signal SemId.feedSem) = 1 ∧
      (feedTask w st url).2.count (Event.wait SemId.feedSem) = 0 ∧
      (feedTask w st url).2.getLast? = some (Event.signal SemId.feedSem)) ∧
    (∀ article,
      (articleTask w st article).2.count (Event.signal SemId.articleSem) = 1 ∧
      (articleTask w st article).2.count (Event.wait SemId.articleSem) = 0 ∧
      (∀ host, (articleTask w st article).2.count (Event.signal (SemId.serverSem host)) =
        (articleTask w st article).2.count (Event.wait (SemId.serverSem host))) ∧
      (article ∈ st.seenArticles →
        ∀ host, (articleTask w st article).2.count (Event.wait (SemId.serverSem host)) = 0) ∧
      (article ∉ st.seenArticles →
        (∀ host, (articleTask w st article).2.count (Event.wait (SemId.serverSem host)) =
          if host = w.getURLServer article.url then 1 else 0) ∧
        ∃ before, (articleTask w st article).2 =
          before ++ [Event.signal (SemId.serverSem (w.getURLServer article.url)),
                     Event.signal SemId.articleSem])) ∧
    (∀ articles s, (processArticles w st articles).2.count (Event.wait s) =
      (processArticles w st articles).2.count (Event.signal s)) ∧
    (∀ feeds s, (dispatchFeeds w st feeds).2.count (Event.wait s) =
      (dispatchFeeds w st feeds).2.count (Event.signal s)) := by
  refine ⟨?_, ?_, fun articles s => processArticles_balance w st articles s,
    fun feeds s => dispatchFeeds_balance w st feeds s⟩
  · intro url
    by_cases h : url ∈ st.seenUrls
    · rw [feedTask_trace_seen w st url h]
      simp [List.count_cons]
    · cases hf : w.feed url with
      | none =>
        rw [feedTask_trace_failure w st url h hf]
        simp [List.count_cons]
      | some articles =>
        rw [feedTask_trace_success w st url articles h hf]
        obtain ⟨h1, h2⟩ := processArticles_no_feedSem w
          { st with seenUrls := StdSet.insert st.seenUrls url } articles
        refine ⟨?_, ?_, ?_⟩
        · simp only [List.count_cons, List.count_append, h1]
          simp
        · simp only [List.count_cons, List.count_append, h2]
          simp
        · exact List.getLast?_concat _
  · intro article
    by_cases h : article ∈ st.seenArticles
    · rw [articleTask_trace_seen w st article h]
      simp [List.count_cons, h]
    · cases hd : w.document article.url with
      | none =>
        rw [articleTask_trace_failure w st article h hd]
        refine ⟨by simp [List.count_cons], by simp [List.count_cons],
          fun host => by simp [List.count_cons], fun hc => absurd hc h, fun _ => ⟨?_, ?_⟩⟩
        · intro host
          by_cases hh : host = w.getURLServer article.url
          · subst hh; simp [List.count_cons]
          · simp [List.count_cons, hh, Ne.symm hh]
        · exact ⟨[Event.wait (SemId.serverSem (w.getURLServer article.url)),
            Event.note (LogNote.singleArticleDownloadBeginning article),
            Event.documentParse article,
            Event.note (LogNote.singleArticleDownloadFailure article)], rfl⟩
      | some docTokens =>
        rw [articleTask_trace_success w st article docTokens h hd]
        refine ⟨by simp [List.count_cons], by simp [List.count_cons],
          fun host => by simp [List.count_cons], fun hc => absurd hc h, fun _ => ⟨?_, ?_⟩⟩
        · intro host
          by_cases hh : host = w.getURLServer article.url
          · subst hh; simp [List.count_cons]
          · simp [List.count_cons, hh, Ne.symm hh]
        · exact ⟨[Event.wait (SemId.serverSem (w.getURLServer article.url)),
            Event.note (LogNote.singleArticleDownloadBeginning article),
            Event.documentParse article], rfl⟩

/-! ## Claims on the dedup sets and fetches -/

theorem StdSet.mem_insert {α : Type} [DecidableEq α] (s : StdSet α) (x y : α) :
    y ∈ StdSet.insert s x ↔ y = x ∨ y ∈ s := by
  unfold StdSet.insert
  split_ifs with h
  · constructor
    · intro hy; exact Or.inr hy
    · rintro (rfl | hy)
      · exact h
      · exact hy
  · exact List.mem_cons

/-- The article task parses the document of `a` once when it claims `a`, and
not at all otherwise. -/
theorem articleTask_docCount (w : World) (st : NewsAggregator) (x a : Article) :
    (articleTask w st x).2.count (Event.documentParse a) +
        (if a ∈ st.seenArticles then 1 else 0) =
      if a ∈ (articleTask w st x).1.seenArticles then 1 else 0 := by
  by_cases h : x ∈ st.seenArticles
  · rw [articleTask_trace_seen w st x h]
    simp [List.count_cons]
  · have key : ∀ (m : TokenMap) (tr : List Event), tr.count (Event.documentParse a) =
        (if a = x then 1 else 0) →
        tr.count (Event.documentParse a) + (if a ∈ st.seenArticles then 1 else 0) =
          if a ∈ ({ st with seenArticles := StdSet.insert st.seenArticles x,
                            serverTitleTokenMap := m } : NewsAggregator).seenArticles
          then 1 else 0 := by
      intro m tr htr
      rw [htr]
      simp only [StdSet.mem_insert]
      by_cases hax : a = x
      · subst hax; simp [h]
      · simp [hax]
    cases hd : w.document x.url with
    | none =>
      rw [articleTask_trace_failure w st x h hd]
      apply key st.serverTitleTokenMap
      by_cases hax : a = x
      · subst hax; simp [List.count_cons]
      · simp [List.count_cons, hax, Ne.symm hax]
    | some docTokens =>
      rw [articleTask_trace_success w st x docTokens h hd]
      apply key
      by_cases hax : a = x
      · subst hax; simp [List.count_cons]
      · simp [List.count_cons, hax, Ne.symm hax]

theorem articleTask_feedCount (w : World) (st : NewsAggregator) (x : Article) (url : String) :
    (articleTask w st x).2.count (Event.feedParse url) = 0 := by
  by_cases h : x ∈ st.seenArticles
  · rw [articleTask_trace_seen w st x h]; simp [List.count_cons]
  · cases hd : w.document x.url with
    | none => rw [articleTask_trace_failure w st x h hd]; simp [List.count_cons]
    | some docTokens =>
      rw [articleTask_trace_success w st x docTokens h hd]; simp [List.count_cons]

theorem processArticles_docCount (w : World) (st : NewsAggregator) (articles : List Article)
    (a : Article) :
    (processArticles w st articles).2.count (Event.documentParse a) +
        (if a ∈ st.seenArticles then 1 else 0) =
      if a ∈ (processArticles w st articles).1.seenArticles then 1 else 0 := by
  induction articles generalizing st with
  | nil => simp [processArticles]
  | cons x rest ih =>
    have h1 := articleTask_docCount w st x a
    have h2 := ih (articleTask w st x).1
    simp only [processArticles, List.count_cons, List.count_append]
    rw [← h2, ← h1]
    simp
    omega

theorem processArticles_feedCount (w : World) (st : NewsAggregator)
    (articles : List Article) (url : String) :
    (processArticles w st articles).2.count (Event.feedParse url) = 0 := by
  induction articles generalizing st with
  | nil => rfl
  | cons x rest ih =>
    simp only [processArticles, List.count_cons, List.count_append,
      articleTask_feedCount, ih]
    simp

theorem feedTask_docCount (w : World) (st : NewsAggregator) (url : String) (a : Article) :
    (feedTask w st url).2.count (Event.documentParse a) +
        (if a ∈ st.seenArticles then 1 else 0) =
      if a ∈ (feedTask w st url).1.seenArticles then 1 else 0 := by
  by_cases h : url ∈ st.seenUrls
  · rw [feedTask_trace_seen w st url h]; simp [List.count_cons]
  · cases hf : w.feed url with
    | none => rw [feedTask_trace_failure w st url h hf]; simp [List.count_cons]
    | some articles =>
      rw [feedTask_trace_success w st url articles h hf]
      have := processArticles_docCount w
        { st with seenUrls := StdSet.insert st.seenUrls url } articles a
      simp only [List.count_cons, List.count_append]
      rw [← this]
      simp

theorem feedTask_feedCount (w : World) (st : NewsAggregator) (x url : String) :
    (feedTask w st x).2.count (Event.feedParse url) +
        (if url ∈ st.seenUrls then 1 else 0) =
      if url ∈ (feedTask w st x).1.seenUrls then 1 else 0 := by
  by_cases h : x ∈ st.seenUrls
  · rw [feedTask_trace_seen w st x h]; simp [List.count_cons]
  · have ins : (if url ∈ StdSet.insert st.seenUrls x then 1 else 0) =
        (if url = x then 1 else 0) + (if url ∈ st.seenUrls then 1 else 0) := by
      simp only [StdSet.mem_insert]
      by_cases hx : url = x
      · subst hx; simp [h]
      · simp [hx]
    cases hf : w.feed x with
    | none =>
      rw [feedTask_trace_failure w st x h hf]
      simp only [ins]
      by_cases hx : url = x
      · subst hx; simp [List.count_cons]
      · simp [List.count_cons, hx, Ne.symm hx]
    | some articles =>
      rw [feedTask_trace_success w st x articles h hf]
      have h0 := processArticles_feedCount w
        { st with seenUrls := StdSet.insert st.seenUrls x } articles url
      have h1 := (processArticles_fields w
        { st with seenUrls := StdSet.insert st.seenUrls x } articles).2.2.2
      simp only [List.count_cons, List.count_append, h0, h1, ins]
      by_cases hx : url = x
      · subst hx; simp
      · simp [hx, Ne.symm hx]

theorem dispatchFeeds_docCount (w : World) (st : NewsAggregator)
    (feeds : List (String × String)) (a : Article) :
    (dispatchFeeds w st feeds).2.count (Event.documentParse a) +
        (if a ∈ st.seenArticles then 1 else 0) =
      if a ∈ (dispatchFeeds w st feeds).1.seenArticles then 1 else 0 := by
  induction feeds generalizing st with
  | nil => simp [dispatchFeeds]
  | cons f rest ih =>
    have h1 := feedTask_docCount w st f.1 a
    have h2 := ih (feedTask w st f.1).1
    simp only [dispatchFeeds, List.count_cons, List.count_append]
    rw [← h2, ← h1]
    simp
    omega

theorem dispatchFeeds_feedCount (w : World) (st : NewsAggregator)
    (feeds : List (String × String)) (url : String) :
    (dispatchFeeds w st feeds).2.count (Event.feedParse url) +
        (if url ∈ st.seenUrls then 1 else 0) =
      if url ∈ (dispatchFeeds w st feeds).1.seenUrls then 1 else 0 := by
  induction feeds generalizing st with
  | nil => simp [dispatchFeeds]
  | cons f rest ih =>
    have h1 := feedTask_feedCount w st f.1 url
    have h2 := ih (feedTask w st f.1).1
    simp only [dispatchFeeds, List.count_cons, List.count_append]
    rw [← h2, ← h1]
    simp
    omega

theorem count_indexAdd_events (items : List Record) (e : Event)
    (he : ∀ article tokens, e ≠ Event.indexAdd article tokens) :
    (items.map (fun item => Event.indexAdd item.1 item.2)).count e = 0 := by
  rw [List.count_eq_zero]
  intro h
  obtain ⟨item, _, hi⟩ := List.mem_map.mp h
  exact he _ _ hi.symm

theorem le_one_of_indicator {c p : Nat} {P : Prop} [Decidable P]
    (h : c + p = if P then 1 else 0) : c ≤ 1 := by
  split_ifs at h <;> omega

/-- C4: dedup claim.  The check-and-insert of the feed task lets the task go on
to `rssFeed.parse()` exactly when the URL was not in `seenUrls` before, and the
URL is in `seenUrls` afterwards; likewise for the article task, `seenArticles`
and `htmlDoc.parse()`.  Hence in a whole run of `processFeeds` (and of
`processArticles`), from any state and for any sequence of entries, repeated
keys included, every feed URL is parsed at most once and the document of every
article is parsed at most once. -/
theorem dedup_fetch_at_most_once (w : World) (st : NewsAggregator) :
    (∀ url, (Event.feedParse url ∈ (feedTask w st url).2 ↔ url ∉ st.seenUrls) ∧
      url ∈ (feedTask w st url).1.seenUrls) ∧
    (∀ article,
      (Event.documentParse article ∈ (articleTask w st article).2 ↔
        article ∉ st.seenArticles) ∧
      article ∈ (articleTask w st article).1.seenArticles) ∧
    (∀ feeds url, (processFeeds w st feeds).2.count (Event.feedParse url) ≤ 1) ∧
    (∀ feeds article, (processFeeds w st feeds).2.count (Event.documentParse article) ≤ 1) ∧
    (∀ articles article,
      (processArticles w st articles).2.count (Event.documentParse article) ≤ 1) := by
  refine ⟨?_, ?_, ?_, ?_, ?_⟩
  · intro url
    have hc := feedTask_feedCount w st url url
    have hin : url ∈ (feedTask w st url).1.seenUrls := by
      by_cases h : url ∈ st.seenUrls
      · rw [feedTask_trace_seen w st url h]; exact h
      · cases hf : w.feed url with
        | none =>
          rw [feedTask_trace_failure w st url h hf]
          exact (StdSet.mem_insert _ _ _).mpr (Or.inl rfl)
        | some articles =>
          rw [feedTask_trace_success w st url articles h hf]
          rw [(processArticles_fields w _ articles).2.2.2]
          exact (StdSet.mem_insert _ _ _).mpr (Or.inl rfl)
    refine ⟨?_, hin⟩
    rw [← List.count_pos_iff]
    rw [if_pos hin] at hc
    split_ifs at hc with h
    · constructor
      · intro hpos; omega
      · intro hn; exact absurd h hn
    · constructor
      · intro _; exact h
      · intro _; omega
  · intro article
    have hc := articleTask_docCount w st article article
    have hin : article ∈ (articleTask w st article).1.seenArticles := by
      by_cases h : article ∈ st.seenArticles
      · rw [articleTask_trace_seen w st article h]; exact h
      · cases hd : w.document article.url with
        | none =>
          rw [articleTask_trace_failure w st article h hd]
          exact (StdSet.mem_insert _ _ _).mpr (Or.inl rfl)
        | some docTokens =>
          rw [articleTask_trace_success w st article docTokens h hd]
          exact (StdSet.mem_insert _ _ _).mpr (Or.inl rfl)
    refine ⟨?_, hin⟩
    rw [← List.count_pos_iff]
    rw [if_pos hin] at hc
    split_ifs at hc with h
    · constructor
      · intro hpos; omega
      · intro hn; exact absurd h hn
    · constructor
      · intro _; exact h
      · intro _; omega
  · intro feeds url
    simp only [processFeeds, addToIndex, List.count_append]
    rw [count_indexAdd_events _ _ (by intro _ _ h; cases h), add_zero]
    exact le_one_of_indicator (dispatchFeeds_feedCount w st feeds url)
  · intro feeds article
    simp only [processFeeds, addToIndex, List.count_append]
    rw [count_indexAdd_events _ _ (by intro _ _ h; cases h), add_zero]
    exact le_one_of_indicator (dispatchFeeds_docCount w st feeds article)
  · intro articles article
    exact le_one_of_indicator (processArticles_docCount w st articles article)

/-- The feed list `[(A, t1), (A, t2)]` of the spec: the feed `A` is parsed once. -/
theorem dedup_fetch_at_most_once_witness :
    (processFeeds (World.mk (fun _ => none) (fun _ => some []) (fun _ => none) (fun u => u))
        (NewsAggregator.new "feeds.xml") [("A", "t1"), ("A", "t2")]).2 =
      [Event.wait SemId.feedSem, Event.feedParse "A", Event.signal SemId.feedSem,
       Event.wait SemId.feedSem, Event.signal SemId.feedSem] ∧
    (processFeeds (World.mk (fun _ => none) (fun _ => some []) (fun _ => none) (fun u => u))
        (NewsAggregator.new "feeds.xml") [("A", "t1"), ("A", "t2")]).2.count
      (Event.feedParse "A") ≤ 1 :=
  ⟨by simp [processFeeds, dispatchFeeds, feedTask, processArticles, addToIndex,
      NewsAggregator.new, StdSet.count, StdSet.insert, TokenMap.entries],
   (dedup_fetch_at_most_once
      (World.mk (fun _ => none) (fun _ => some []) (fun _ => none) (fun u => u))
      (NewsAggregator.new "feeds.xml")).2.2.1 [("A", "t1"), ("A", "t2")] "A"⟩

/-- An article that is not a duplicate and whose document fetch fails. -/
theorem permit_balance_witness :
    Article.mk "h/1" "t" ∉ (NewsAggregator.new "feeds.xml").seenArticles ∧
    ∃ before,
      (articleTask (World.mk (fun _ => none) (fun _ => none) (fun _ => none) (fun _ => "h"))
          (NewsAggregator.new "feeds.xml") (Article.mk "h/1" "t")).2 =
        before ++ [Event.signal (SemId.serverSem "h"), Event.signal SemId.articleSem] :=
  have h0 : Article.mk "h/1" "t" ∉ (NewsAggregator.new "feeds.xml").seenArticles := by
    simp [NewsAggregator.new]
  ⟨h0, (((permit_balance
      (World.mk (fun _ => none) (fun _ => none) (fun _ => none) (fun _ => "h"))
      (NewsAggregator.new "feeds.xml")).2.1 (Article.mk "h/1" "t")).2.2.2.2 h0).2⟩

/-! ## The records of the table -/

namespace TokenMap

theorem mem_entries (m : TokenMap) (host title : String) (record : Record) :
    ((host, title), record) ∈ entries m ↔
      ∃ inner, (host, inner) ∈ m ∧ (title, record) ∈ inner := by
  simp only [entries, List.mem_flatten, List.mem_map]
  constructor
  · rintro ⟨l, ⟨⟨h, inner⟩, hm, rfl⟩, hl⟩
    obtain ⟨⟨t, r⟩, ht, heq⟩ := List.mem_map.mp hl
    simp only [Prod.mk.injEq] at heq
    obtain ⟨⟨rfl, rfl⟩, rfl⟩ := heq
    exact ⟨inner, hm, ht⟩
  · rintro ⟨inner, hm, ht⟩
    exact ⟨_, ⟨(host, inner), hm, rfl⟩, List.mem_map.mpr ⟨(title, record), ht, rfl⟩⟩

theorem mem_entries_iff {m : TokenMap} (h : WF m) (host title : String) (record : Record) :
    ((host, title), record) ∈ entries m ↔ m.entry host title = some record := by
  rw [mem_entries]
  constructor
  · rintro ⟨inner, hm, ht⟩
    simp only [entry, StdMap.find_of_mem h.1 hm, Option.some_bind]
    exact StdMap.find_of_mem (h.2 _ hm).1 ht
  · intro he
    cases hf : StdMap.find m host with
    | none => simp [entry, hf] at he
    | some inner =>
      simp only [entry, hf, Option.some_bind] at he
      exact ⟨inner, StdMap.mem_of_find hf, StdMap.mem_of_find he⟩

theorem entries_cons (p : String × StdMap String Record) (m : TokenMap) :
    entries (p :: m) =
      p.2.map (fun titleEntry => ((p.1, titleEntry.1), titleEntry.2)) ++ entries m := by
  simp [entries]

theorem mem_keys_entries {m : TokenMap} {k : String × String}
    (h : k ∈ (entries m).map Prod.fst) : k.1 ∈ StdMap.keys m := by
  obtain ⟨⟨⟨host, title⟩, record⟩, he, rfl⟩ := List.mem_map.mp h
  obtain ⟨inner, hm, _⟩ := (mem_entries m host title record).mp he
  exact List.mem_map.mpr ⟨(host, inner), hm, rfl⟩

/-- The nested loops visit every key `(host, title)` once. -/
theorem nodup_keys_entries {m : TokenMap} (h : WF m) :
    ((entries m).map Prod.fst).Nodup := by
  induction m with
  | nil => simp [entries]
  | cons p rest ih =>
    have hrest : WF rest := ⟨h.1.tail, fun q hq => h.2 q (List.mem_cons_of_mem _ hq)⟩
    rw [entries_cons, List.map_append, List.nodup_append]
    refine ⟨?_, ih hrest, ?_⟩
    · rw [List.map_map]
      have hk : (StdMap.keys p.2).Nodup := (h.2 p (List.mem_cons_self _ _)).1.nodup_keys
      have : (List.map (Prod.fst ∘ fun titleEntry : String × Record =>
          ((p.1, titleEntry.1), titleEntry.2)) p.2) =
          (StdMap.keys p.2).map (fun t => (p.1, t)) := by
        simp [StdMap.keys, List.map_map, Function.comp_def]
      rw [this]
      exact hk.map (fun a b hab => by simpa using hab)
    · intro k hk1 hk2
      obtain ⟨q, hq, rfl⟩ := List.mem_map.mp hk1
      obtain ⟨te, _, rfl⟩ := List.mem_map.mp hq
      exact lt_irrefl _ (h.1.lt_of_mem (mem_keys_entries hk2))

end TokenMap

/-! ## What a run merges -/

theorem mergeArticles_append (m : TokenMap) (l1 l2 : List MergeInput) :
    mergeArticles m (l1 ++ l2) = mergeArticles (mergeArticles m l1) l2 := by
  simp [mergeArticles, List.foldl_append]

/-- The article task merges its article when it claims it and the document
parses, and nothing otherwise. -/
theorem articleTask_merge (w : World) (st : NewsAggregator) (x : Article) :
    ∃ L : List Article, L.Nodup ∧
      (∀ a, a ∈ L ↔ a = x ∧ a ∉ st.seenArticles ∧ (w.document a.url).isSome) ∧
      (articleTask w st x).1.serverTitleTokenMap =
        mergeArticles st.serverTitleTokenMap (L.map w.mergeInput) ∧
      (∀ b, b ∈ (articleTask w st x).1.seenArticles ↔ b ∈ st.seenArticles ∨ b = x) := by
  by_cases h : x ∈ st.seenArticles
  · refine ⟨[], List.nodup_nil, ?_, ?_, ?_⟩
    · intro a
      simp only [List.not_mem_nil, false_iff, not_and]
      rintro rfl hn
      exact absurd h hn
    · rw [articleTask_trace_seen w st x h]; rfl
    · intro b
      rw [articleTask_trace_seen w st x h]
      constructor
      · intro hb; exact Or.inl hb
      · rintro (hb | rfl)
        · exact hb
        · exact h
  · cases hd : w.document x.url with
    | none =>
      refine ⟨[], List.nodup_nil, ?_, ?_, ?_⟩
      · intro a
        simp only [List.not_mem_nil, false_iff, not_and]
        rintro rfl _
        simp [hd]
      · rw [articleTask_trace_failure w st x h hd]; rfl
      · intro b
        rw [articleTask_trace_failure w st x h hd]
        simp only [StdSet.mem_insert]
        tauto
    | some docTokens =>
      refine ⟨[x], List.nodup_singleton x, ?_, ?_, ?_⟩
      · intro a
        simp only [List.mem_singleton]
        constructor
        · rintro rfl
          exact ⟨rfl, h, by simp [hd]⟩
        · exact fun ha => ha.1
      · rw [articleTask_trace_success w st x docTokens h hd]
        simp [mergeArticles, World.mergeInput, hd]
      · intro b
        rw [articleTask_trace_success w st x docTokens h hd]
        simp only [StdSet.mem_insert]
        tauto

theorem processArticles_merge (w : World) (st : NewsAggregator) (articles : List Article) :
    ∃ L : List Article, L.Nodup ∧
      (∀ a, a ∈ L ↔ a ∈ articles ∧ a ∉ st.seenArticles ∧ (w.document a.url).isSome) ∧
      (processArticles w st articles).1.serverTitleTokenMap =
        mergeArticles st.serverTitleTokenMap (L.map w.mergeInput) ∧
      (∀ b, b ∈ (processArticles w st articles).1.seenArticles ↔
        b ∈ st.seenArticles ∨ b ∈ articles) := by
  induction articles generalizing st with
  | nil =>
    exact ⟨[], List.nodup_nil, by simp, rfl, by simp [processArticles]⟩
  | cons x rest ih =>
    obtain ⟨L1, n1, m1, e1, s1⟩ := articleTask_merge w st x
    obtain ⟨L2, n2, m2, e2, s2⟩ := ih (articleTask w st x).1
    refine ⟨L1 ++ L2, ?_, ?_, ?_, ?_⟩
    · rw [List.nodup_append]
      refine ⟨n1, n2, ?_⟩
      intro a ha1 ha2
      have hx : a = x := ((m1 a).mp ha1).1
      exact ((m2 a).mp ha2).2.1 ((s1 a).mpr (Or.inr hx))
    · intro a
      rw [List.mem_append, m1, m2, s1, List.mem_cons]
      by_cases hax : a = x
      · subst hax; tauto
      · tauto
    · simp only [processArticles]
      rw [e2, e1, List.map_append, mergeArticles_append]
    · intro b
      simp only [processArticles]
      rw [s2, s1, List.mem_cons]
      tauto

theorem feedTask_merge (w : World) (st : NewsAggregator) (url : String) :
    ∃ L : List Article, L.Nodup ∧
      (∀ a, a ∈ L ↔ (url ∉ st.seenUrls ∧ ∃ articles, w.feed url = some articles ∧
        a ∈ articles) ∧ a ∉ st.seenArticles ∧ (w.document a.url).isSome) ∧
      (feedTask w st url).1.serverTitleTokenMap =
        mergeArticles st.serverTitleTokenMap (L.map w.mergeInput) ∧
      (∀ b, b ∈ (feedTask w st url).1.seenArticles ↔ b ∈ st.seenArticles ∨
        (url ∉ st.seenUrls ∧ ∃ articles, w.feed url = some articles ∧ b ∈ articles)) ∧
      (∀ u, u ∈ (feedTask w st url).1.seenUrls ↔ u ∈ st.seenUrls ∨ u = url) := by
  by_cases h : url ∈ st.seenUrls
  · rw [feedTask_trace_seen w st url h]
    refine ⟨[], List.nodup_nil, ?_, rfl, ?_, ?_⟩
    · intro a; simp [h]
    · intro b; simp [h]
    · intro u
      constructor
      · intro hu; exact Or.inl hu
      · rintro (hu | rfl)
        · exact hu
        · exact h
  · cases hf : w.feed url with
    | none =>
      rw [feedTask_trace_failure w st url h hf]
      refine ⟨[], List.nodup_nil, ?_, rfl, ?_, ?_⟩
      · intro a; simp
      · intro b; simp
      · intro u
        simp only [StdSet.mem_insert]
        tauto
    | some articles =>
      rw [feedTask_trace_success w st url articles h hf]
      obtain ⟨L, n, m, e, s⟩ := processArticles_merge w
        { st with seenUrls := StdSet.insert st.seenUrls url } articles
      refine ⟨L, n, ?_, e, ?_, ?_⟩
      · intro a
        rw [m]
        simp only [Option.some.injEq, exists_eq_left']
        tauto
      · intro b
        rw [s]
        simp only [Option.some.injEq, exists_eq_left']
        tauto
      · intro u
        rw [(processArticles_fields w _ articles).2.2.2]
        simp only [StdSet.mem_insert]
        tauto

theorem merged_iff (P Q A D : Prop) :
    ((P ∧ ¬A ∧ D) ∨ (Q ∧ ¬(A ∨ P) ∧ D)) ↔ ((P ∨ Q) ∧ ¬A ∧ D) := by
  tauto

theorem dispatchFeeds_merge (w : World) (st : NewsAggregator)
    (feeds : List (String × String)) :
    ∃ L : List Article, L.Nodup ∧
      (∀ a, a ∈ L ↔ (∃ f ∈ feeds, f.1 ∉ st.seenUrls ∧ ∃ articles,
        w.feed f.1 = some articles ∧ a ∈ articles) ∧
        a ∉ st.seenArticles ∧ (w.document a.url).isSome) ∧
      (dispatchFeeds w st feeds).1.serverTitleTokenMap =
        mergeArticles st.serverTitleTokenMap (L.map w.mergeInput) ∧
      (∀ b, b ∈ (dispatchFeeds w st feeds).1.seenArticles ↔ b ∈ st.seenArticles ∨
        ∃ f ∈ feeds, f.1 ∉ st.seenUrls ∧ ∃ articles,
          w.feed f.1 = some articles ∧ b ∈ articles) ∧
      (∀ u, u ∈ (dispatchFeeds w st feeds).1.seenUrls ↔
        u ∈ st.seenUrls ∨ ∃ f ∈ feeds, f.1 = u) := by
  induction feeds generalizing st with
  | nil =>
    exact ⟨[], List.nodup_nil, by simp, rfl, by simp [dispatchFeeds], by simp [dispatchFeeds]⟩
  | cons f rest ih =>
    obtain ⟨L1, n1, m1, e1, s1, u1⟩ := feedTask_merge w st f.1
    obtain ⟨L2, n2, m2, e2, s2, u2⟩ := ih (feedTask w st f.1).1
    have claimed : ∀ b,
        (∃ g ∈ f :: rest, g.1 ∉ st.seenUrls ∧ ∃ articles,
          w.feed g.1 = some articles ∧ b ∈ articles) ↔
        (f.1 ∉ st.seenUrls ∧ ∃ articles, w.feed f.1 = some articles ∧ b ∈ articles) ∨
        (∃ g ∈ rest, g.1 ∉ (feedTask w st f.1).1.seenUrls ∧ ∃ articles,
          w.feed g.1 = some articles ∧ b ∈ articles) := by
      intro b
      constructor
      · rintro ⟨g, hg, hgs, arts, ha, hb⟩
        by_cases hgf : g.1 = f.1
        · left
          rw [← hgf]
          exact ⟨hgs, arts, ha, hb⟩
        · right
          rcases List.mem_cons.mp hg with rfl | hg
          · exact absurd rfl hgf
          · refine ⟨g, hg, ?_, arts, ha, hb⟩
            rw [u1]
            rintro (hc | hc)
            · exact hgs hc
            · exact hgf hc
      · rintro (⟨hfs, arts, ha, hb⟩ | ⟨g, hg, hgs, arts, ha, hb⟩)
        · exact ⟨f, List.mem_cons_self _ _, hfs, arts, ha, hb⟩
        · refine ⟨g, List.mem_cons_of_mem _ hg, ?_, arts, ha, hb⟩
          intro hc
          exact hgs ((u1 g.1).mpr (Or.inl hc))
    refine ⟨L1 ++ L2, ?_, ?_, ?_, ?_, ?_⟩
    · rw [List.nodup_append]
      refine ⟨n1, n2, ?_⟩
      intro a ha1 ha2
      exact ((m2 a).mp ha2).2.1 ((s1 a).mpr (Or.inr ((m1 a).mp ha1).1))
    · intro a
      rw [List.mem_append, m1, m2, s1, claimed]
      exact merged_iff _ _ _ _
    · simp only [dispatchFeeds]
      rw [e2, e1, List.map_append, mergeArticles_append]
    · intro b
      simp only [dispatchFeeds]
      rw [s2, s1, claimed]
      exact or_assoc
    · intro u
      simp only [dispatchFeeds]
      rw [u2, u1]
      simp only [List.mem_cons, exists_eq_or_imp]
      tauto

/-- From a state with empty dedup sets and an empty table, the dispatch loop
merges exactly the articles that are fetched successfully, each once. -/
theorem dispatchFeeds_fresh (w : World) (st : NewsAggregator) (feeds : StdMap String String)
    (h1 : st.seenUrls = []) (h2 : st.seenArticles = []) (h3 : st.serverTitleTokenMap = []) :
    ∃ L : List Article, L.Nodup ∧ (∀ a, a ∈ L ↔ w.Fetched feeds a) ∧
      (dispatchFeeds w st feeds).1.serverTitleTokenMap =
        mergeArticles [] (L.map w.mergeInput) := by
  obtain ⟨L, n, m, e, _, _⟩ := dispatchFeeds_merge w st feeds
  rw [h3] at e
  refine ⟨L, n, ?_, e⟩
  intro a
  rw [m]
  simp [World.Fetched, h1, h2]

/-- The table built from a set of articles does not depend on the order in
which their tasks reach the critical section. -/
theorem mergeArticles_perm {l1 l2 : List MergeInput} (p : l1.Perm l2) :
    mergeArticles [] l1 = mergeArticles [] l2 := by
  rw [mergeArticles_eq_mergeAll, mergeArticles_eq_mergeAll]
  apply mergeAll_perm (p.map _) [] TokenMap.WF_nil tokensSorted_nil
  intro x hx
  obtain ⟨y, _, rfl⟩ := List.mem_map.mp hx
  exact stdSort_sorted _

theorem WF_mergeArticles (l : List MergeInput) : (mergeArticles [] l).WF := by
  rw [mergeArticles_eq_mergeAll]
  exact WF_mergeAll TokenMap.WF_nil _

theorem entry_mergeArticles_isSome (l : List MergeInput) (host title : String) :
    ((mergeArticles [] l).entry host title).isSome ↔
      ∃ x ∈ l, x.1 = host ∧ x.2.1.title = title := by
  rw [mergeArticles_eq_mergeAll]
  have h := (mergeAll_record (l.map (fun x => (x.1, x.2.1, stdSort x.2.2))) host title).1
  rw [← Option.not_isSome_iff_eq_none] at h
  have h' := not_iff_not.mpr h
  simp only [not_not] at h'
  rw [h']
  simp only [List.mem_map, not_forall, not_not]
  constructor
  · rintro ⟨x, ⟨y, hy, rfl⟩, hk⟩
    exact ⟨y, hy, hk⟩
  · rintro ⟨y, hy, hk⟩
    exact ⟨_, ⟨y, hy, rfl⟩, hk⟩

/-- The keys of the records built from a list of merges. -/
theorem keys_entries_mergeArticles (l : List MergeInput) (host title : String) :
    (host, title) ∈ (mergeArticles [] l).entries.map Prod.fst ↔
      ∃ x ∈ l, x.1 = host ∧ x.2.1.title = title := by
  have hwf := WF_mergeArticles l
  rw [← entry_mergeArticles_isSome]
  constructor
  · intro hk
    obtain ⟨⟨k, record⟩, hin, hkeq⟩ := List.mem_map.mp hk
    simp only at hkeq
    subst hkeq
    rw [(TokenMap.mem_entries_iff hwf host title record).mp hin]
    rfl
  · intro hs
    obtain ⟨record, hr⟩ := Option.isSome_iff_exists.mp hs
    exact List.mem_map.mpr ⟨((host, title), record),
      (TokenMap.mem_entries_iff hwf host title record).mpr hr, rfl⟩

/-- A run of `processFeeds` from a state with empty dedup sets and an empty
table, in terms of any duplicate-free list of the fetched articles. -/
theorem processFeeds_fresh (w : World) (st : NewsAggregator) (feeds : StdMap String String)
    (h1 : st.seenUrls = []) (h2 : st.seenArticles = []) (h3 : st.serverTitleTokenMap = [])
    (fetched : List Article) (hnodup : fetched.Nodup)
    (hmem : ∀ a, a ∈ fetched ↔ w.Fetched feeds a) :
    (processFeeds w st feeds).1.serverTitleTokenMap =
      mergeArticles [] (fetched.map w.mergeInput) ∧
    (processFeeds w st feeds).1.index =
      st.index ++ (mergeArticles [] (fetched.map w.mergeInput)).entries.map Prod.snd := by
  obtain ⟨L, hn, hm, he⟩ := dispatchFeeds_fresh w st feeds h1 h2 h3
  have hperm : L.Perm fetched :=
    (List.perm_ext_iff_of_nodup hn hnodup).mpr (fun a => (hm a).trans (hmem a).symm)
  have hmap : (dispatchFeeds w st feeds).1.serverTitleTokenMap =
      mergeArticles [] (fetched.map w.mergeInput) := by
    rw [he]
    exact mergeArticles_perm (hperm.map _)
  refine ⟨?_, ?_⟩
  · simp only [processFeeds, addToIndex]
    exact hmap
  · simp only [processFeeds, addToIndex]
    rw [hmap, (dispatchFeeds_fields w st feeds).2.2]

/-! ## Partial success -/

/-- C9: partial success.  A feed task whose parse fails and an article task
whose document fetch fails leave `serverTitleTokenMap` as it was.  Whatever
fetches succeed or fail, with `fetched` the articles listed by a feed of the
list that parses and whose own document parses (each once, in any order): a run
of `processFeeds` from a state with empty dedup sets and an empty table ends
with the table obtained by merging exactly these articles and appends exactly
the records of that table to the index; so does `buildIndex` from the state of
the constructor when the feed list parses; and these records have pairwise
distinct keys, one for each `(host, title)` of a fetched article. -/
theorem processFeeds_partial_success (w : World) (feeds : StdMap String String) :
    (∀ (st : NewsAggregator) (url : String), w.feed url = none →
      (feedTask w st url).1.serverTitleTokenMap = st.serverTitleTokenMap) ∧
    (∀ (st : NewsAggregator) (article : Article), w.document article.url = none →
      (articleTask w st article).1.serverTitleTokenMap = st.serverTitleTokenMap) ∧
    (∃ fetched : List Article, fetched.Nodup ∧ ∀ a, a ∈ fetched ↔ w.Fetched feeds a) ∧
    (∀ fetched : List Article, fetched.Nodup → (∀ a, a ∈ fetched ↔ w.Fetched feeds a) →
      (∀ st : NewsAggregator, st.seenUrls = [] → st.seenArticles = [] →
        st.serverTitleTokenMap = [] →
        (processFeeds w st feeds).1.serverTitleTokenMap =
          mergeArticles [] (fetched.map w.mergeInput) ∧
        (processFeeds w st feeds).1.index =
          st.index ++ (mergeArticles [] (fetched.map w.mergeInput)).entries.map Prod.snd) ∧
      (∀ uri : String, w.feedList uri = some feeds →
        ∃ st1, (buildIndex w (NewsAggregator.new uri)).1 = Except.ok st1 ∧
          st1.serverTitleTokenMap = mergeArticles [] (fetched.map w.mergeInput) ∧
          st1.index = (mergeArticles [] (fetched.map w.mergeInput)).entries.map Prod.snd) ∧
      ((mergeArticles [] (fetched.map w.mergeInput)).entries.map Prod.fst).Nodup ∧
      (∀ host title,
        (host, title) ∈ (mergeArticles [] (fetched.map w.mergeInput)).entries.map Prod.fst ↔
          ∃ a ∈ fetched, w.getURLServer a.url = host ∧ a.title = title)) := by
  refine ⟨?_, ?_, ?_, ?_⟩
  · intro st url hf
    by_cases h : url ∈ st.seenUrls
    · rw [feedTask_trace_seen w st url h]
    · rw [feedTask_trace_failure w st url h hf]
  · intro st article hd
    by_cases h : article ∈ st.seenArticles
    · rw [articleTask_trace_seen w st article h]
    · rw [articleTask_trace_failure w st article h hd]
  · obtain ⟨L, hn, hm, _⟩ := dispatchFeeds_fresh w (NewsAggregator.new "") feeds rfl rfl rfl
    exact ⟨L, hn, hm⟩
  · intro fetched hnodup hmem
    refine ⟨?_, ?_, TokenMap.nodup_keys_entries (WF_mergeArticles _), ?_⟩
    · intro st h1 h2 h3
      exact processFeeds_fresh w st feeds h1 h2 h3 fetched hnodup hmem
    · intro uri hfl
      obtain ⟨e1, e2⟩ := processFeeds_fresh w { NewsAggregator.new uri with built := true }
        feeds rfl rfl rfl fetched hnodup hmem
      refine ⟨(processFeeds w { NewsAggregator.new uri with built := true } feeds).1,
        ?_, e1, ?_⟩
      · simp [buildIndex, processAllFeeds, NewsAggregator.new, hfl]
      · rw [e2]
        simp [NewsAggregator.new]
    · intro host title
      rw [keys_entries_mergeArticles]
      constructor
      · rintro ⟨x, hx, h1, h2⟩
        obtain ⟨a, ha, rfl⟩ := List.mem_map.mp hx
        exact ⟨a, ha, h1, h2⟩
      · rintro ⟨a, ha, h1, h2⟩
        exact ⟨w.mergeInput a, List.mem_map.mpr ⟨a, ha, rfl⟩, h1, h2⟩

/-- The end-to-end scenario of the spec: exactly two records reach the index. -/
theorem processFeeds_partial_success_witness :
    [Article.mk "h/1" "t", Article.mk "h/2" "t", Article.mk "g/1" "s"].Nodup ∧
    (∀ a, a ∈ [Article.mk "h/1" "t", Article.mk "h/2" "t", Article.mk "g/1" "s"] ↔
      endToEndWorld.Fetched [("f1", "first"), ("f2", "second")] a) ∧
    endToEndWorld.feedList "feeds.xml" = some [("f1", "first"), ("f2", "second")] ∧
    ∃ st1, (buildIndex endToEndWorld (NewsAggregator.new "feeds.xml")).1 = Except.ok st1 ∧
      st1.serverTitleTokenMap =
        [("g", [("s", (Article.mk "g/1" "s", ["z"]))]),
         ("h", [("t", (Article.mk "h/1" "t", ["a", "b"]))])] ∧
      st1.index = [(Article.mk "g/1" "s", ["z"]), (Article.mk "h/1" "t", ["a", "b"])] :=
  have hn : [Article.mk "h/1" "t", Article.mk "h/2" "t", Article.mk "g/1" "s"].Nodup := by
    decide
  have hm : ∀ a, a ∈ [Article.mk "h/1" "t", Article.mk "h/2" "t", Article.mk "g/1" "s"] ↔
      endToEndWorld.Fetched [("f1", "first"), ("f2", "second")] a := by
    intro a
    simp only [World.Fetched, endToEndWorld, List.mem_cons, List.mem_singleton,
      List.not_mem_nil, or_false, exists_eq_or_imp, exists_eq_left]
    have hdoc : ∀ url : String, (if url = "h/1" then some ["a", "a", "b", "c"]
        else if url = "h/2" then some ["b", "a", "d", "b"] else some ["z"]).isSome = true := by
      intro url
      split_ifs <;> rfl
    simp [hdoc]
  have hv : mergeArticles []
      ([Article.mk "h/1" "t", Article.mk "h/2" "t", Article.mk "g/1" "s"].map
        endToEndWorld.mergeInput) =
      [("g", [("s", (Article.mk "g/1" "s", ["z"]))]),
       ("h", [("t", (Article.mk "h/1" "t", ["a", "b"]))])] := by
    simp +decide [mergeArticles, mergeArticle, World.mergeInput, endToEndWorld, stdSort,
      mergeRecord, isDupe, StdMap.count, TokenMap.get, TokenMap.entry, TokenMap.store,
      StdMap.find,
      StdMap.set, mergeItem, stdMin, set_intersection, Article.lt_iff]
  ⟨hn, hm, rfl,
    (((processFeeds_partial_success endToEndWorld
      [("f1", "first"), ("f2", "second")]).2.2.2 _ hn hm).2.1 "feeds.xml" rfl).imp
      (fun st1 h => ⟨h.1, h.2.1.trans hv, h.2.2.trans (by rw [hv]; rfl)⟩)⟩

/-! ## The semaphores along a run -/

theorem semOps_nil (id : SemId) : semOps id [] = [] := rfl

theorem semOps_append (id : SemId) (l1 l2 : List Event) :
    semOps id (l1 ++ l2) = semOps id l1 ++ semOps id l2 := by
  simp [semOps, List.filterMap_append]

theorem semOps_cons (id : SemId) (e : Event) (l : List Event) :
    semOps id (e :: l) = semOps id [e] ++ semOps id l := by
  rw [← semOps_append]; rfl

theorem SemOp.pairs_append (a b : Nat) :
    SemOp.pairs a ++ SemOp.pairs b = SemOp.pairs (a + b) := by
  induction a with
  | zero => simp [SemOp.pairs]
  | succ a ih =>
    have : a + 1 + b = (a + b) + 1 := by omega
    rw [this]
    simp only [SemOp.pairs, List.cons_append, ih]

/-- With the `wait` of its dispatcher, an article task performs on every
semaphore a sequence of `wait`-`signal` pairs. -/
theorem articleTask_semOps (w : World) (st : NewsAggregator) (a : Article) (id : SemId) :
    ∃ k, semOps id (Event.wait SemId.articleSem :: (articleTask w st a).2) =
      SemOp.pairs k := by
  by_cases h : a ∈ st.seenArticles
  · rw [articleTask_trace_seen w st a h]
    by_cases hid : id = SemId.articleSem
    · exact ⟨1, by subst hid; simp [semOps, Event.semOp, SemOp.pairs]⟩
    · exact ⟨0, by simp [semOps, Event.semOp, SemOp.pairs, Ne.symm hid]⟩
  · have key : ∀ mid : List Event, semOps id mid = [] →
        ∃ k, semOps id (Event.wait SemId.articleSem ::
          (Event.wait (SemId.serverSem (w.getURLServer a.url)) :: mid ++
            [Event.signal (SemId.serverSem (w.getURLServer a.url)),
             Event.signal SemId.articleSem])) = SemOp.pairs k := by
      intro mid hmid
      rw [semOps_cons, semOps_append, semOps_cons (e := Event.wait (SemId.serverSem _)), hmid]
      by_cases hid : id = SemId.articleSem
      · exact ⟨1, by subst hid; simp [semOps, Event.semOp, SemOp.pairs]⟩
      · by_cases hid2 : id = SemId.serverSem (w.getURLServer a.url)
        · exact ⟨1, by subst hid2; simp [semOps, Event.semOp, SemOp.pairs]⟩
        · exact ⟨0, by
            simp [semOps, Event.semOp, SemOp.pairs, Ne.symm hid, Ne.symm hid2]⟩
    cases hd : w.document a.url with
    | none =>
      rw [articleTask_trace_failure w st a h hd]
      exact key [Event.note (LogNote.singleArticleDownloadBeginning a),
        Event.documentParse a, Event.note (LogNote.singleArticleDownloadFailure a)] rfl
    | some docTokens =>
      rw [articleTask_trace_success w st a docTokens h hd]
      exact key [Event.note (LogNote.singleArticleDownloadBeginning a),
        Event.documentParse a] rfl

theorem processArticles_semOps (w : World) (st : NewsAggregator) (articles : List Article)
    (id : SemId) : ∃ k, semOps id (processArticles w st articles).2 = SemOp.pairs k := by
  induction articles generalizing st with
  | nil => exact ⟨0, rfl⟩
  | cons a rest ih =>
    obtain ⟨k1, h1⟩ := articleTask_semOps w st a id
    obtain ⟨k2, h2⟩ := ih (articleTask w st a).1
    refine ⟨k1 + k2, ?_⟩
    simp only [processArticles]
    rw [semOps_append, h1, h2, SemOp.pairs_append]

theorem processArticles_semOps_feedSem (w : World) (st : NewsAggregator)
    (articles : List Article) : semOps SemId.feedSem (processArticles w st articles).2 = [] := by
  induction articles generalizing st with
  | nil => rfl
  | cons a rest ih =>
    have h1 : semOps SemId.feedSem (articleTask w st a).2 = [] := by
      by_cases h : a ∈ st.seenArticles
      · rw [articleTask_trace_seen w st a h]; simp [semOps, Event.semOp]
      · cases hd : w.document a.url with
        | none => rw [articleTask_trace_failure w st a h hd]; simp [semOps, Event.semOp]
        | some docTokens =>
          rw [articleTask_trace_success w st a docTokens h hd]; simp [semOps, Event.semOp]
    simp only [processArticles]
    rw [semOps_append, semOps_cons, h1, ih]
    simp [semOps, Event.semOp]

/-- With the `wait` of its dispatcher, a feed task performs on every semaphore a
sequence of `wait`-`signal` pairs. -/
theorem feedTask_semOps (w : World) (st : NewsAggregator) (url : String) (id : SemId) :
    ∃ k, semOps id (Event.wait SemId.feedSem :: (feedTask w st url).2) = SemOp.pairs k := by
  by_cases hid : id = SemId.feedSem
  · subst hid
    refine ⟨1, ?_⟩
    by_cases h : url ∈ st.seenUrls
    · rw [feedTask_trace_seen w st url h]; simp [semOps, Event.semOp, SemOp.pairs]
    · cases hf : w.feed url with
      | none =>
        rw [feedTask_trace_failure w st url h hf]; simp [semOps, Event.semOp, SemOp.pairs]
      | some articles =>
        rw [feedTask_trace_success w st url articles h hf]
        rw [semOps_cons, semOps_append, semOps_cons (e := Event.feedParse url),
          processArticles_semOps_feedSem]
        simp [semOps, Event.semOp, SemOp.pairs]
  · by_cases h : url ∈ st.seenUrls
    · rw [feedTask_trace_seen w st url h]
      exact ⟨0, by simp [semOps, Event.semOp, SemOp.pairs, Ne.symm hid]⟩
    · cases hf : w.feed url with
      | none =>
        rw [feedTask_trace_failure w st url h hf]
        exact ⟨0, by simp [semOps, Event.semOp, SemOp.pairs, Ne.symm hid]⟩
      | some articles =>
        rw [feedTask_trace_success w st url articles h hf]
        obtain ⟨k, hk⟩ := processArticles_semOps w
          { st with seenUrls := StdSet.insert st.seenUrls url } articles id
        refine ⟨k, ?_⟩
        rw [semOps_cons, semOps_append, semOps_cons (e := Event.feedParse url), hk]
        simp [semOps, Event.semOp, Ne.symm hid]

theorem dispatchFeeds_semOps (w : World) (st : NewsAggregator)
    (feeds : List (String × String)) (id : SemId) :
    ∃ k, semOps id (dispatchFeeds w st feeds).2 = SemOp.pairs k := by
  induction feeds generalizing st with
  | nil => exact ⟨0, rfl⟩
  | cons f rest ih =>
    obtain ⟨k1, h1⟩ := feedTask_semOps w st f.1 id
    obtain ⟨k2, h2⟩ := ih (feedTask w st f.1).1
    refine ⟨k1 + k2, ?_⟩
    simp only [dispatchFeeds]
    rw [semOps_append, h1, h2, SemOp.pairs_append]

theorem processFeeds_semOps (w : World) (st : NewsAggregator)
    (feeds : StdMap String String) (id : SemId) :
    ∃ k, semOps id (processFeeds w st feeds).2 = SemOp.pairs k := by
  obtain ⟨k, hk⟩ := dispatchFeeds_semOps w st feeds id
  refine ⟨k, ?_⟩
  simp only [processFeeds, addToIndex]
  rw [semOps_append, hk]
  have : semOps id (List.map (fun item : Record => Event.indexAdd item.1 item.2)
      (List.map Prod.snd (dispatchFeeds w st feeds).1.serverTitleTokenMap.entries)) = [] := by
    simp [semOps, Event.semOp, List.filterMap_eq_nil_iff]
  rw [this, List.append_nil]

/-- Replaying any prefix of a sequence of `wait`-`signal` pairs on a semaphore
with at least one permit never blocks, and leaves the counter within bounds. -/
theorem Semaphore.run_pairs_take (N : Int) (h1 : 1 ≤ N) (h2 : N ≤ INT_MAX) :
    ∀ (k n : Nat), ∃ sem, (Semaphore.new N).run ((SemOp.pairs k).take n) = some sem ∧
      0 ≤ sem.counter ∧ sem.counter ≤ N := by
  have hw : wrapInt (N - 1) = N - 1 := wrapInt_eq (by omega) (by omega)
  have hs : wrapInt (N - 1 + 1) = N := by
    rw [wrapInt_eq (by omega) (by omega)]; omega
  intro k
  induction k with
  | zero =>
    intro n
    exact ⟨Semaphore.new N, by simp [SemOp.pairs, Semaphore.run], by
      simp only [Semaphore.new]; omega, le_refl _⟩
  | succ k ih =>
    intro n
    rcases n with _ | _ | n
    · exact ⟨Semaphore.new N, by simp [Semaphore.run], by
        simp only [Semaphore.new]; omega, le_refl _⟩
    · refine ⟨⟨N - 1⟩, ?_, by simp only; omega, by simp only; omega⟩
      have hpos : N > 0 := by omega
      simp [SemOp.pairs, Semaphore.run, Semaphore.step, Semaphore.wait, Semaphore.new, hpos, hw]
    · obtain ⟨sem, hr, hb⟩ := ih n
      refine ⟨sem, ?_, hb⟩
      have hpos : N > 0 := by omega
      simp only [SemOp.pairs, List.take_succ_cons, Semaphore.run, Semaphore.step,
        Semaphore.wait, Semaphore.signal, Semaphore.new, if_pos hpos, Option.some_bind, hw, hs]
      exact hr

theorem matched_pairs (k : Nat) : Matched (SemOp.pairs k) := by
  induction k with
  | zero => intro n; simp [SemOp.pairs]
  | succ k ih =>
    intro n
    rcases n with _ | _ | n
    · simp
    · simp [SemOp.pairs]
    · have := ih n
      simp only [SemOp.pairs, List.take_succ_cons, List.count_cons]
      simp
      exact this

theorem semOps_take (id : SemId) (events : List Event) (n : Nat) :
    ∃ m, semOps id (events.take n) = (semOps id events).take m := by
  have hp : semOps id (events.take n) <+: semOps id events :=
    List.IsPrefix.filterMap _ (List.take_prefix n events)
  exact ⟨_, List.prefix_iff_eq_take.mp hp⟩

theorem Matched.take {ops : List SemOp} (h : Matched ops) (m : Nat) : Matched (ops.take m) := by
  intro n
  rw [List.take_take]
  exact h _

/-- At every point of a run of `processFeeds`, the operations performed so far
on a semaphore can be replayed on the semaphore as constructed: no `wait` finds
the counter at zero, every signal is matched to an earlier wait, and the counter
stays between `0` and the number of permits. -/
theorem processFeeds_semaphores (w : World) (st : NewsAggregator)
    (feeds : StdMap String String) (id : SemId) (n : Nat) :
    Matched (semOps id ((processFeeds w st feeds).2.take n)) ∧
    ∃ sem, id.initial.run (semOps id ((processFeeds w st feeds).2.take n)) = some sem ∧
      0 ≤ sem.counter ∧ sem.counter ≤ id.permits := by
  obtain ⟨k, hk⟩ := processFeeds_semOps w st feeds id
  obtain ⟨m, hm⟩ := semOps_take id (processFeeds w st feeds).2 n
  rw [hm, hk]
  refine ⟨(matched_pairs k).take m, ?_⟩
  have hpos := id.permits_pos
  exact Semaphore.run_pairs_take id.permits (by omega) id.permits_le k m

/-! ## Semaphore capacity -/

/-- C6: semaphore capacity.  For a `Semaphore` constructed with `N > 0` (an
`int`), in every state reached by a sequence of enabled `wait` and `signal`
steps in which each signal is matched to an earlier wait, `0 ≤ counter ≤ N`, and
the number of outstanding permits `N - counter` is the number of unmatched
waits, hence at most `N`; in particular for `feedSem` (5 permits), `articleSem`
(18) and every per-host semaphore (8).  The operations a run of `processFeeds`
has performed on a semaphore at any point form such a sequence, and replaying
them on the semaphore as constructed never finds a `wait` disabled. -/
theorem semaphore_capacity :
    (∀ (N : Int) (ops : List SemOp) (s : Semaphore),
      0 < N → N ≤ INT_MAX → Matched ops → (Semaphore.new N).run ops = some s →
      0 ≤ s.counter ∧ s.counter ≤ N ∧
        N - s.counter = (ops.count SemOp.wait : Int) - (ops.count SemOp.signal : Int) ∧
        N - s.counter ≤ N) ∧
    (∀ (id : SemId) (ops : List SemOp) (s : Semaphore),
      Matched ops → id.initial.run ops = some s →
      0 ≤ s.counter ∧ s.counter ≤ id.permits ∧ id.permits - s.counter ≤ id.permits) ∧
    SemId.feedSem.permits = 5 ∧ SemId.articleSem.permits = 18 ∧
    (∀ host, (SemId.serverSem host).permits = 8) ∧
    (∀ (w : World) (st : NewsAggregator) (feeds : StdMap String String) (id : SemId)
        (n : Nat),
      Matched (semOps id ((processFeeds w st feeds).2.take n)) ∧
      ∃ sem, id.initial.run (semOps id ((processFeeds w st feeds).2.take n)) = some sem ∧
        0 ≤ sem.counter ∧ sem.counter ≤ id.permits) := by
  have main : ∀ (N : Int) (ops : List SemOp) (s : Semaphore),
      0 < N → N ≤ INT_MAX → Matched ops → (Semaphore.new N).run ops = some s →
      0 ≤ s.counter ∧ s.counter ≤ N ∧
        N - s.counter = (ops.count SemOp.wait : Int) - (ops.count SemOp.signal : Int) ∧
        N - s.counter ≤ N := by
    intro N ops s hpos hN hm hrun
    have := Semaphore.run_counter N hN ops (Semaphore.new N) s 0 (by simp only [Semaphore.new]; omega)
      (by simp [Semaphore.new]) (by simpa [Matched] using hm) hrun
    simp only [Nat.cast_zero, add_zero] at this
    omega
  refine ⟨main, ?_, rfl, rfl, fun _ => rfl, processFeeds_semaphores⟩
  intro id ops s hm hrun
  have := main id.permits ops s id.permits_pos id.permits_le hm hrun
  omega

/-- A semaphore with five permits after two waits and one signal. -/
theorem semaphore_capacity_witness :
    (0 : Int) < 5 ∧ (5 : Int) ≤ INT_MAX ∧ Matched [SemOp.wait, SemOp.wait, SemOp.signal] ∧
    (Semaphore.new 5).run [SemOp.wait, SemOp.wait, SemOp.signal] = some ⟨4⟩ ∧
    (0 ≤ (Semaphore.mk 4).counter ∧ (Semaphore.mk 4).counter ≤ 5 ∧
      5 - (Semaphore.mk 4).counter =
        (([SemOp.wait, SemOp.wait, SemOp.signal].count SemOp.wait : Nat) : Int) -
          (([SemOp.wait, SemOp.wait, SemOp.signal].count SemOp.signal : Nat) : Int) ∧
      5 - (Semaphore.mk 4).counter ≤ 5) :=
  have hm : Matched [SemOp.wait, SemOp.wait, SemOp.signal] := by
    intro n
    rcases n with _ | _ | _ | n <;> simp +decide
  have hr : (Semaphore.new 5).run [SemOp.wait, SemOp.wait, SemOp.signal] = some ⟨4⟩ := by
    decide
  ⟨by decide, by decide, hm, hr,
    semaphore_capacity.1 5 _ _ (by decide) (by decide) hm hr⟩

end Rss
